import Mathlib

/-!
# Verification of the schema inference and merge engine of `tap_redash`

This file gives a shallow embedding of the core of `tap_redash.py`:

* `Value` models the dynamically-typed row values handed to the tap
  (parsed JSON: null, booleans, integers, floats, strings, objects, arrays).
* `typeOf` embeds `Redash._singer_type_for_value`.
* `merge` embeds `Redash._merge_schemas` (Python dicts are modelled as
  association lists preserving insertion order, as Python 3.7+ dicts do).
* `inferProperties` embeds `Redash._infer_properties`.
* `streamName` embeds the name-sanitization part of
  `Redash.generate_stream_entry`.  Python's `str.isalnum`/`str.lower` are
  Unicode-aware; `pyIsAlnum`/`pyLower` model them exactly on all ASCII
  code points and on the non-ASCII letters `'Ä'`/`'ä'` (per the Unicode
  character database), and every theorem about `streamName` stays inside
  that modelled domain.

A `Schema` always carries a `"type"` entry: every schema the program
builds (every output of `_singer_type_for_value` and `_merge_schemas`)
has one, and `_merge_schemas`' input contract is a sequence of such
schemas.  `merge` is defined through the fuelled `mergeF`;
`mergeF_stable` and `merge_unfold` prove the fuel chosen is always
sufficient, so `merge` satisfies exactly the recursion of
`_merge_schemas`.

Theorems at the end of the file settle the specification claims.
-/

set_option linter.unusedVariables false

/-- A dynamically-typed JSON-shaped value, as handed to the tap by the
Redash results endpoint.  `float` carries no payload since
`_singer_type_for_value` never inspects the numeric value of a float. -/
inductive Value where
  | null : Value
  | bool (b : Bool) : Value
  | int (n : Int) : Value
  | float : Value
  | str (s : String) : Value
  | obj (fields : List (String × Value)) : Value
  | arr (elems : List Value) : Value
deriving Repr

/-- The `"type"` entry of a schema dict: either a single tag (as produced by
`_singer_type_for_value`) or a list of tags (as produced by `_merge_schemas`). -/
inductive JType where
  | single (s : String) : JType
  | list (l : List String) : JType
deriving Repr, DecidableEq

/-- A schema dictionary as built by `tap_redash`: the `"type"` entry plus the
optional `"properties"`, `"items"` and `"additionalProperties"` entries
(`none` models the key being absent from the dict). -/
inductive Schema where
  | mk (type : JType) (properties : Option (List (String × Schema)))
       (items : Option Schema) (additionalProperties : Option Bool) : Schema
deriving Repr

/-- The `"type"` entry of a schema. -/
def Schema.typeJ : Schema → JType
  | .mk t _ _ _ => t

/-- The `"properties"` entry of a schema (`none` when the key is absent). -/
def Schema.propsOpt : Schema → Option (List (String × Schema))
  | .mk _ p _ _ => p

/-- The `"items"` entry of a schema (`none` when the key is absent). -/
def Schema.itemsOpt : Schema → Option Schema
  | .mk _ _ i _ => i

/-- The `"additionalProperties"` entry of a schema (`none` when absent). -/
def Schema.addPropsOpt : Schema → Option Bool
  | .mk _ _ _ a => a

/-- The properties of a schema, reading a missing `"properties"` key as the
empty mapping. -/
def Schema.props (s : Schema) : List (String × Schema) :=
  s.propsOpt.getD []

/-- Flattening of a `"type"` entry, as done by the type-collection loop of
`_merge_schemas` (`extend` for a list, `append` for a single tag). -/
def JType.tags : JType → List String
  | .single s => [s]
  | .list l => l

/-- Lexicographic comparison of character lists, by code point — the order
Python uses to compare strings. -/
def charsLe : List Char → List Char → Bool
  | [], _ => true
  | _ :: _, [] => false
  | a :: as, b :: bs => if a = b then charsLe as bs else decide (a < b)

/-- Python's `<=` on strings: lexicographic code-point comparison. -/
def strLe (a b : String) : Bool :=
  charsLe a.data b.data

/-- The ordering relation used to sort type-tag lists. -/
def strLeR (a b : String) : Prop :=
  strLe a b = true

instance : DecidableRel strLeR := fun a b => by
  unfold strLeR; infer_instance

/-- `sorted(set(l))` for Python strings: the sorted duplicate-free list of
the elements of `l`. -/
def sortDedup (l : List String) : List String :=
  l.dedup.insertionSort strLeR

/-- One step of the Python dict-update pattern of `_merge_schemas`:
`if k not in d: d[k] = v else: d[k] = m(d[k], v)`.  An existing key keeps its
position (as Python dict updates do); a new key is appended at the end. -/
def upsert (m : Schema → Schema → Schema) :
    List (String × Schema) → String → Schema → List (String × Schema)
  | [], k, v => [(k, v)]
  | (k', v') :: rest, k, v =>
    if k' = k then (k', m v' v) :: rest
    else (k', v') :: upsert m rest k v

/-- Folding a list of `(key, value)` pairs into an accumulator dict with
`upsert`, in order — the inner loop of the properties merge. -/
def insertAll (m : Schema → Schema → Schema)
    (acc : List (String × Schema)) (ps : List (String × Schema)) :
    List (String × Schema) :=
  ps.foldl (fun a kv => upsert m a kv.1 kv.2) acc

/-- The properties-merging loop of `_merge_schemas`: walk the input schemas
in order; a schema without a `"properties"` key contributes nothing. -/
def mergeProps (m : Schema → Schema → Schema) (schemas : List Schema) :
    List (String × Schema) :=
  schemas.foldl
    (fun acc s =>
      match s.propsOpt with
      | none => acc
      | some ps => insertAll m acc ps)
    []

/-- Fuelled embedding of `Redash._merge_schemas`.  The fuel only limits the
recursion depth; `merge` below instantiates it with a bound that the actual
recursion of the Python function never exceeds (its recursive calls descend
into strictly shallower schemas). -/
def mergeF : Nat → List Schema → Schema
  | 0, _ => .mk (.list ["null"]) none none none
  | f + 1, schemas =>
    let types := (schemas.flatMap fun s => s.typeJ.tags) ++ ["null"]
    let ty : JType := .list (sortDedup types)
    let props? : Option (List (String × Schema)) :=
      if "object" ∈ types then
        some (mergeProps (fun a b => mergeF f [a, b]) schemas)
      else none
    let addP? : Option Bool := if "object" ∈ types then some false else none
    let itemSchemas := schemas.filterMap Schema.itemsOpt
    let items? : Option Schema :=
      if "array" ∈ types then
        if itemSchemas.isEmpty then none else some (mergeF f itemSchemas)
      else none
    .mk ty props? items? addP?

mutual

/-- Nesting depth of a schema: `1` plus the maximal depth of its property
sub-schemas and its items sub-schema. -/
def Schema.depth : Schema → Nat
  | .mk _ p i _ => 1 + max (propsOptDepth p) (itemsDepth i)

/-- Maximal depth of the values of an optional properties list. -/
def propsOptDepth : Option (List (String × Schema)) → Nat
  | none => 0
  | some ps => propsDepth ps

/-- Maximal depth of the values of a properties list. -/
def propsDepth : List (String × Schema) → Nat
  | [] => 0
  | (_, v) :: rest => max v.depth (propsDepth rest)

/-- Depth of an optional items schema (`0` when absent). -/
def itemsDepth : Option Schema → Nat
  | none => 0
  | some s => s.depth

end

/-- Maximal depth of a list of schemas. -/
def schemasDepth (l : List Schema) : Nat :=
  l.foldr (fun s acc => max s.depth acc) 0

/-- Embedding of `Redash._merge_schemas`: the fuelled recursion run with
enough fuel for its recursion depth (every recursive call of the Python
function is on strictly shallower schemas, so `schemasDepth l + 1` levels
always suffice). -/
def merge (schemas : List Schema) : Schema :=
  mergeF (schemasDepth schemas + 1) schemas

mutual

/-- Embedding of `Redash._singer_type_for_value`. -/
def typeOf : Value → Schema
  | .null => .mk (.single "null") none none none
  | .bool _ => .mk (.single "boolean") none none none
  | .int _ => .mk (.single "integer") none none none
  | .float => .mk (.single "number") none none none
  | .str _ => .mk (.single "string") none none none
  | .obj fields => .mk (.single "object") (some (typeOfFields fields)) none (some false)
  | .arr [] => .mk (.single "array") none none none
  | .arr (.null :: _) =>
    .mk (.single "array") none
      (some (.mk (.single "array") none
        (some (.mk (.single "string") none none none)) none)) none
  | .arr (v :: _) => .mk (.single "array") none (some (typeOf v)) none

/-- The dict comprehension `{k: typeOf(v) for k, v in value.items()}`. -/
def typeOfFields : List (String × Value) → List (String × Schema)
  | [] => []
  | (k, v) :: rest => (k, typeOf v) :: typeOfFields rest

end

/-- `union.setdefault(k, []).append(schema)`: append `s` to the list stored
under `k`, creating the entry (at the end, preserving first-seen field order)
when `k` is new. -/
def pushSchema (acc : List (String × List Schema)) (k : String) (s : Schema) :
    List (String × List Schema) :=
  match acc with
  | [] => [(k, [s])]
  | (k', ss) :: rest =>
    if k' = k then (k', ss ++ [s]) :: rest
    else (k', ss) :: pushSchema rest k s

/-- `True` exactly on object-shaped rows (`isinstance(row, dict)`). -/
def Value.isObj : Value → Bool
  | .obj _ => true
  | _ => false

/-- One row of the sampling loop of `_infer_properties`: a non-dict row is
skipped; for a dict row every `(field, value)` pair contributes
`typeOf value` to that field's collected schema list. -/
def scanRow (acc : List (String × List Schema)) : Value → List (String × List Schema)
  | .obj fields => fields.foldl (fun a kv => pushSchema a kv.1 (typeOf kv.2)) acc
  | _ => acc

/-- Embedding of `Redash._infer_properties`: scan the first
`min 100 rows.length` rows, then merge each field's collected schemas. -/
def inferProperties (rows : List Value) : List (String × Schema) :=
  let scanned := rows.take (min 100 rows.length)
  let union := scanned.foldl scanRow []
  union.map fun kv => (kv.1, merge kv.2)

/-- Partial model of CPython's Unicode-aware `str.isalnum`, from the
Unicode character database: exact on every ASCII code point (letters and
decimal digits) and on the non-ASCII letters `'Ä'` (U+00C4) and `'ä'`
(U+00E4), both of which CPython's `isalnum` accepts.  Other non-ASCII
code points are outside the modelled domain; every theorem below confines
`streamName` to the modelled domain. -/
def pyIsAlnum (c : Char) : Bool :=
  (decide ('a' ≤ c) && decide (c ≤ 'z')) ||
  (decide ('A' ≤ c) && decide (c ≤ 'Z')) ||
  (decide ('0' ≤ c) && decide (c ≤ '9')) ||
  c == 'Ä' || c == 'ä'

/-- Partial model of CPython's Unicode-aware `str.lower`, same domain as
`pyIsAlnum`: an ASCII uppercase letter shifts down by 32 code points,
`'Ä'` lowers to `'ä'` (its Unicode lowercase mapping), and everything
else in the domain is unchanged. -/
def pyLower (c : Char) : Char :=
  if 'A' ≤ c ∧ c ≤ 'Z' then Char.ofNat (c.toNat + 32)
  else if c = 'Ä' then 'ä'
  else c

/-- The sanitization pipeline of `generate_stream_entry` on the character
list of the query name: `.replace(' ', '_')`, `.replace('-', '_')`, keep
only alphanumerics and underscores, then `.lower()`. -/
def sanitizeData (l : List Char) : List Char :=
  ((((l.map fun c => if c = ' ' then '_' else c).map
      fun c => if c = '-' then '_' else c).filter
      fun c => pyIsAlnum c || c == '_').map pyLower)

/-- The decimal digit characters, embedding Python's `str` of a digit. -/
def natDigit (d : Nat) : Char :=
  match d with
  | 0 => '0' | 1 => '1' | 2 => '2' | 3 => '3' | 4 => '4'
  | 5 => '5' | 6 => '6' | 7 => '7' | 8 => '8' | _ => '9'

/-- Digit-accumulating loop for `natDigits`; the fuel is an upper bound on
the number of digits and never runs out for `fuel ≥ n`. -/
def natDigitsAux : Nat → Nat → List Char → List Char
  | 0, _, acc => acc
  | fuel + 1, n, acc =>
    if n < 10 then natDigit (n % 10) :: acc
    else natDigitsAux fuel (n / 10) (natDigit (n % 10) :: acc)

/-- Python's `str` of a non-negative integer: its decimal digits. -/
def natDigits (n : Nat) : List Char :=
  natDigitsAux (n + 1) n []

/-- The fallback stream name `f'query_{query_id}'`. -/
def queryFallback (queryId : Nat) : List Char :=
  "query_".data ++ natDigits queryId

/-- Embedding of the stream-name computation of
`Redash.generate_stream_entry`: sanitize `query.get('name', f'query_{id}')`
and fall back to `f'query_{query_id}'` when the result is empty.  Redash
query ids are non-negative integers, modelled as `Nat`. -/
def streamName (queryId : Nat) (name : Option String) : String :=
  let queryName : List Char := (name.map String.data).getD (queryFallback queryId)
  let s := sanitizeData queryName
  if s = [] then ⟨queryFallback queryId⟩ else ⟨s⟩

/-- Characters the specification allows in a stream name: lowercase ASCII
letters, decimal digits, and underscore. -/
def allowedChar (c : Char) : Bool :=
  (decide ('a' ≤ c) && decide (c ≤ 'z')) ||
  (decide ('0' ≤ c) && decide (c ≤ '9')) ||
  c == '_'

mutual

/-- Well-formed values: every object along the value has duplicate-free
field names, as Python dicts guarantee by construction. -/
def Value.wfB : Value → Bool
  | .obj fields => decide (fields.map Prod.fst).Nodup && wfFields fields
  | .arr elems => wfElems elems
  | _ => true

/-- `Value.wfB` on every value of a field list. -/
def wfFields : List (String × Value) → Bool
  | [] => true
  | (_, v) :: rest => v.wfB && wfFields rest

/-- `Value.wfB` on every element of an array. -/
def wfElems : List Value → Bool
  | [] => true
  | v :: rest => v.wfB && wfElems rest

end

/-- The field names of a schema's `"properties"` entry. -/
def Schema.propKeys (s : Schema) : List String :=
  s.props.map Prod.fst

/-- Well-formed schemas: the invariant shared by every schema the tap
builds (outputs of `typeOf` and of `merge`).  Property keys are
duplicate-free, a `"properties"` entry exists exactly when `"object"` is
among the type tags, `"additionalProperties"` is `false` exactly when
`"object"` is among the type tags, an `"items"` entry implies the
`"array"` tag, and all sub-schemas are again well-formed. -/
inductive Schema.WF : Schema → Prop where
  | intro (t : JType) (p : Option (List (String × Schema)))
      (i : Option Schema) (ap : Option Bool)
      (hnd : ((p.getD []).map Prod.fst).Nodup)
      (hp : p.isSome = true ↔ "object" ∈ t.tags)
      (hap : ap = if "object" ∈ t.tags then some false else none)
      (hi : ∀ s, i = some s → "array" ∈ t.tags)
      (hps : ∀ k v, (k, v) ∈ p.getD [] → Schema.WF v)
      (his : ∀ s, i = some s → Schema.WF s) :
      Schema.WF (.mk t p i ap)

/-! ## Order lemmas for the type-tag sort -/

theorem charsLe_total : ∀ a b : List Char, charsLe a b = true ∨ charsLe b a = true := by
  intro a
  induction a with
  | nil => intro b; left; rfl
  | cons x xs ih =>
    intro b
    cases b with
    | nil => right; rfl
    | cons y ys =>
      by_cases hxy : x = y
      · subst hxy
        simpa [charsLe] using ih ys
      · rcases lt_or_gt_of_ne hxy with h | h
        · left; simp [charsLe, hxy, h]
        · right; simp [charsLe, Ne.symm hxy, h]

theorem charsLe_trans : ∀ a b c : List Char,
    charsLe a b = true → charsLe b c = true → charsLe a c = true := by
  intro a
  induction a with
  | nil => intro b c _ _; rfl
  | cons x xs ih =>
    intro b c hab hbc
    cases b with
    | nil => simp [charsLe] at hab
    | cons y ys =>
      cases c with
      | nil => simp [charsLe] at hbc
      | cons z zs =>
        by_cases hxy : x = y <;> by_cases hyz : y = z
        · subst hxy; subst hyz
          simp only [charsLe, if_pos rfl] at hab hbc ⊢
          exact ih ys zs hab hbc
        · subst hxy
          simp only [charsLe, if_pos rfl, if_neg hyz] at hbc ⊢
          exact hbc
        · subst hyz
          simp only [charsLe, if_neg hxy] at hab ⊢
          exact hab
        · simp only [charsLe, if_neg hxy] at hab
          simp only [charsLe, if_neg hyz] at hbc
          have hlt : x < z := lt_trans (of_decide_eq_true hab) (of_decide_eq_true hbc)
          have hxz : x ≠ z := ne_of_lt hlt
          simp [charsLe, hxz, hlt]

theorem charsLe_antisymm : ∀ a b : List Char,
    charsLe a b = true → charsLe b a = true → a = b := by
  intro a
  induction a with
  | nil =>
    intro b _ hba
    cases b with
    | nil => rfl
    | cons y ys => simp [charsLe] at hba
  | cons x xs ih =>
    intro b hab hba
    cases b with
    | nil => simp [charsLe] at hab
    | cons y ys =>
      by_cases hxy : x = y
      · subst hxy
        simp only [charsLe, if_pos rfl] at hab hba
        rw [ih ys hab hba]
      · simp only [charsLe, if_neg hxy] at hab
        simp only [charsLe, if_neg (Ne.symm hxy)] at hba
        exact absurd (of_decide_eq_true hba) (lt_asymm (of_decide_eq_true hab))

instance : IsTotal String strLeR :=
  ⟨fun a b => charsLe_total a.data b.data⟩

instance : IsTrans String strLeR :=
  ⟨fun a b c => charsLe_trans a.data b.data c.data⟩

instance : IsAntisymm String strLeR :=
  ⟨fun a b hab hba => by
    cases a; cases b
    exact congrArg String.mk (charsLe_antisymm _ _ hab hba)⟩

theorem mem_sortDedup {x : String} {l : List String} :
    x ∈ sortDedup l ↔ x ∈ l := by
  unfold sortDedup
  rw [(List.perm_insertionSort strLeR l.dedup).mem_iff, List.mem_dedup]

theorem sorted_sortDedup (l : List String) :
    List.Sorted strLeR (sortDedup l) :=
  List.sorted_insertionSort strLeR l.dedup

theorem nodup_sortDedup (l : List String) : (sortDedup l).Nodup :=
  ((List.perm_insertionSort strLeR l.dedup).nodup_iff).2 (List.nodup_dedup l)

theorem sortDedup_congr {l₁ l₂ : List String}
    (h : ∀ x, x ∈ l₁ ↔ x ∈ l₂) : sortDedup l₁ = sortDedup l₂ := by
  have hperm : List.Perm l₁.dedup l₂.dedup := by
    rw [List.perm_ext_iff_of_nodup (List.nodup_dedup l₁) (List.nodup_dedup l₂)]
    intro a
    rw [List.mem_dedup, List.mem_dedup]
    exact h a
  exact List.eq_of_perm_of_sorted
    ((List.perm_insertionSort strLeR l₁.dedup).trans
      (hperm.trans (List.perm_insertionSort strLeR l₂.dedup).symm))
    (sorted_sortDedup l₁) (sorted_sortDedup l₂)

/-! ## Association-list lemmas for the properties merge -/

/-- Lookup in an association list, first match wins — `d[k]` for the
Python dicts modelled as association lists. -/
def lookupKV : List (String × Schema) → String → Option Schema
  | [], _ => none
  | (k', v') :: rest, k => if k' = k then some v' else lookupKV rest k

theorem lookupKV_eq_none_iff {l : List (String × Schema)} {k : String} :
    lookupKV l k = none ↔ k ∉ l.map Prod.fst := by
  induction l with
  | nil => simp [lookupKV]
  | cons p rest ih =>
    obtain ⟨k', v'⟩ := p
    by_cases h : k' = k
    · subst h
      simp [lookupKV]
    · simp [lookupKV, h, ih, Ne.symm h]

theorem lookupKV_mem {l : List (String × Schema)} {k : String} {v : Schema}
    (h : lookupKV l k = some v) : (k, v) ∈ l := by
  induction l with
  | nil => simp [lookupKV] at h
  | cons p rest ih =>
    obtain ⟨k', v'⟩ := p
    by_cases hk : k' = k
    · subst hk
      simp [lookupKV] at h
      simp [h]
    · simp [lookupKV, hk] at h
      exact List.mem_cons_of_mem _ (ih h)

theorem lookupKV_isSome_iff {l : List (String × Schema)} {k : String} :
    (lookupKV l k).isSome = true ↔ k ∈ l.map Prod.fst := by
  rcases h : lookupKV l k with _ | v
  · simpa [h] using lookupKV_eq_none_iff.1 h
  · simp only [h, Option.isSome_some, true_iff]
    exact List.mem_map.2 ⟨(k, v), lookupKV_mem h, rfl⟩

theorem mem_keys_upsert {m : Schema → Schema → Schema}
    {acc : List (String × Schema)} {k k'' : String} {v : Schema} :
    k'' ∈ (upsert m acc k v).map Prod.fst ↔
      k'' ∈ acc.map Prod.fst ∨ k'' = k := by
  induction acc with
  | nil => simp [upsert]
  | cons p rest ih =>
    obtain ⟨k', v'⟩ := p
    by_cases h : k' = k
    · subst h
      simp only [upsert, if_true, eq_self_iff_true, List.map_cons, List.mem_cons]
      tauto
    · simp only [upsert, if_neg h, List.map_cons, List.mem_cons, ih]
      tauto

theorem nodup_keys_upsert {m : Schema → Schema → Schema}
    {acc : List (String × Schema)} {k : String} {v : Schema}
    (h : (acc.map Prod.fst).Nodup) :
    ((upsert m acc k v).map Prod.fst).Nodup := by
  induction acc with
  | nil => simp [upsert]
  | cons p rest ih =>
    obtain ⟨k', v'⟩ := p
    simp only [List.map_cons, List.nodup_cons] at h
    by_cases hk : k' = k
    · subst hk
      simpa [upsert, List.nodup_cons] using h
    · simp only [upsert, if_neg hk, List.map_cons, List.nodup_cons]
      refine ⟨fun hmem => ?_, ih h.2⟩
      rcases mem_keys_upsert.1 hmem with hmem | rfl
      · exact h.1 hmem
      · exact hk rfl

theorem lookupKV_upsert_self {m : Schema → Schema → Schema}
    {acc : List (String × Schema)} {k : String} {v : Schema} :
    lookupKV (upsert m acc k v) k =
      some ((lookupKV acc k).elim v fun u => m u v) := by
  induction acc with
  | nil => simp [upsert, lookupKV]
  | cons p rest ih =>
    obtain ⟨k', v'⟩ := p
    by_cases h : k' = k
    · subst h
      simp [upsert, lookupKV]
    · simp [upsert, lookupKV, h, ih]

theorem lookupKV_upsert_other {m : Schema → Schema → Schema}
    {acc : List (String × Schema)} {k k' : String} {v : Schema}
    (h : k' ≠ k) :
    lookupKV (upsert m acc k v) k' = lookupKV acc k' := by
  induction acc with
  | nil => simp [upsert, lookupKV, Ne.symm h]
  | cons p rest ih =>
    obtain ⟨k0, v0⟩ := p
    by_cases hk : k0 = k
    · subst hk
      simp [upsert, lookupKV, Ne.symm h]
    · by_cases hk' : k0 = k'
      · subst hk'
        simp [upsert, lookupKV, hk]
      · simp [upsert, lookupKV, hk, hk', ih]

theorem upsert_of_not_mem {m : Schema → Schema → Schema}
    {acc : List (String × Schema)} {k : String} {v : Schema}
    (h : k ∉ acc.map Prod.fst) :
    upsert m acc k v = acc ++ [(k, v)] := by
  induction acc with
  | nil => simp [upsert]
  | cons p rest ih =>
    obtain ⟨k', v'⟩ := p
    simp only [List.map_cons, List.mem_cons] at h
    push_neg at h
    simp [upsert, Ne.symm h.1, ih h.2]

theorem upsert_values {m : Schema → Schema → Schema} {P : Schema → Prop}
    {acc : List (String × Schema)} {k : String} {v : Schema}
    (hacc : ∀ p ∈ acc, P p.2) (hv : P v)
    (hm : ∀ a b, P a → P b → P (m a b)) :
    ∀ p ∈ upsert m acc k v, P p.2 := by
  induction acc with
  | nil => simpa [upsert] using hv
  | cons q rest ih =>
    obtain ⟨k', v'⟩ := q
    by_cases h : k' = k
    · subst h
      intro p hp
      rcases List.mem_cons.1 (by simpa [upsert] using hp) with rfl | hp'
      · exact hm _ _ (hacc _ (List.mem_cons_self _ _)) hv
      · exact hacc _ (List.mem_cons_of_mem _ hp')
    · intro p hp
      rcases List.mem_cons.1 (by simpa [upsert, h] using hp) with rfl | hp'
      · exact hacc _ (List.mem_cons_self _ _)
      · exact ih (fun q hq => hacc _ (List.mem_cons_of_mem _ hq)) p hp'

theorem insertAll_nil_right {m : Schema → Schema → Schema}
    {acc : List (String × Schema)} : insertAll m acc [] = acc := rfl

theorem insertAll_cons {m : Schema → Schema → Schema}
    {acc ps : List (String × Schema)} {k : String} {v : Schema} :
    insertAll m acc ((k, v) :: ps) = insertAll m (upsert m acc k v) ps := rfl

theorem insertAll_append {m : Schema → Schema → Schema}
    {acc ps qs : List (String × Schema)} :
    insertAll m acc (ps ++ qs) = insertAll m (insertAll m acc ps) qs :=
  List.foldl_append ..

theorem lookupKV_insertAll_not_mem {m : Schema → Schema → Schema}
    {acc ps : List (String × Schema)} {k : String}
    (h : k ∉ ps.map Prod.fst) :
    lookupKV (insertAll m acc ps) k = lookupKV acc k := by
  induction ps generalizing acc with
  | nil => rfl
  | cons p rest ih =>
    obtain ⟨k0, v0⟩ := p
    simp only [List.map_cons, List.mem_cons] at h
    push_neg at h
    rw [insertAll_cons, ih h.2, lookupKV_upsert_other h.1]

theorem mem_keys_insertAll {m : Schema → Schema → Schema}
    {acc ps : List (String × Schema)} {k : String} :
    k ∈ (insertAll m acc ps).map Prod.fst ↔
      k ∈ acc.map Prod.fst ∨ k ∈ ps.map Prod.fst := by
  induction ps generalizing acc with
  | nil => simp [insertAll_nil_right]
  | cons p rest ih =>
    obtain ⟨k0, v0⟩ := p
    rw [insertAll_cons, ih]
    simp only [mem_keys_upsert, List.map_cons, List.mem_cons]
    tauto

theorem nodup_keys_insertAll {m : Schema → Schema → Schema}
    {acc ps : List (String × Schema)}
    (h : (acc.map Prod.fst).Nodup) :
    ((insertAll m acc ps).map Prod.fst).Nodup := by
  induction ps generalizing acc with
  | nil => exact h
  | cons p rest ih =>
    obtain ⟨k0, v0⟩ := p
    rw [insertAll_cons]
    exact ih (nodup_keys_upsert h)

theorem insertAll_of_disjoint {m : Schema → Schema → Schema}
    {acc ps : List (String × Schema)}
    (hdis : ∀ x ∈ ps.map Prod.fst, x ∉ acc.map Prod.fst)
    (hnd : (ps.map Prod.fst).Nodup) :
    insertAll m acc ps = acc ++ ps := by
  induction ps generalizing acc with
  | nil => simp [insertAll_nil_right]
  | cons p rest ih =>
    obtain ⟨k0, v0⟩ := p
    simp only [List.map_cons, List.nodup_cons] at hnd
    have h0 : k0 ∉ acc.map Prod.fst := hdis k0 (by simp)
    have hdis2 : ∀ x ∈ rest.map Prod.fst,
        x ∉ (acc ++ [(k0, v0)]).map Prod.fst := by
      intro x hx hmem
      rw [List.map_append, List.mem_append] at hmem
      rcases hmem with hmem2 | hmem2
      · exact hdis x (by simp only [List.map_cons, List.mem_cons]; exact Or.inr hx) hmem2
      · have hxk : x = k0 := by simpa using hmem2
        exact hnd.1 (hxk ▸ hx)
    rw [insertAll_cons, upsert_of_not_mem h0, ih hdis2 hnd.2,
      List.append_assoc]
    rfl

theorem lookupKV_insertAll {m : Schema → Schema → Schema}
    {acc ps : List (String × Schema)} {k : String}
    (hnd : (ps.map Prod.fst).Nodup) :
    lookupKV (insertAll m acc ps) k =
      (lookupKV ps k).elim (lookupKV acc k)
        fun v => some ((lookupKV acc k).elim v fun u => m u v) := by
  induction ps generalizing acc with
  | nil => rfl
  | cons p rest ih =>
    obtain ⟨k0, v0⟩ := p
    simp only [List.map_cons, List.nodup_cons] at hnd
    by_cases hk : k0 = k
    · subst hk
      rw [insertAll_cons, lookupKV_insertAll_not_mem hnd.1,
        lookupKV_upsert_self]
      simp [lookupKV]
    · rw [insertAll_cons, ih hnd.2, lookupKV_upsert_other (Ne.symm hk)]
      simp [lookupKV, hk]

theorem insertAll_values {m : Schema → Schema → Schema} {P : Schema → Prop}
    {acc ps : List (String × Schema)}
    (hacc : ∀ p ∈ acc, P p.2) (hps : ∀ p ∈ ps, P p.2)
    (hm : ∀ a b, P a → P b → P (m a b)) :
    ∀ p ∈ insertAll m acc ps, P p.2 := by
  induction ps generalizing acc with
  | nil => exact hacc
  | cons q rest ih =>
    obtain ⟨k0, v0⟩ := q
    rw [insertAll_cons]
    exact ih
      (upsert_values hacc (hps _ (List.mem_cons_self _ _)) hm)
      (fun p hp => hps _ (List.mem_cons_of_mem _ hp))

/-- One step of the outer properties loop equals `insertAll` on `s.props`. -/
theorem mergePropsStep {m : Schema → Schema → Schema}
    {acc : List (String × Schema)} {s : Schema} :
    (match s.propsOpt with
      | none => acc
      | some ps => insertAll m acc ps) = insertAll m acc s.props := by
  rcases h : s.propsOpt with _ | ps <;> simp [Schema.props, h, insertAll_nil_right]

theorem mergeProps_pair {m : Schema → Schema → Schema} {a b : Schema} :
    mergeProps m [a, b] = insertAll m (insertAll m [] a.props) b.props := by
  simp only [mergeProps, List.foldl_cons, List.foldl_nil]
  rw [show (match a.propsOpt with
      | none => ([] : List (String × Schema))
      | some ps => insertAll m [] ps) = insertAll m [] a.props from mergePropsStep]
  exact mergePropsStep

/-! ## Depth lemmas -/

theorem Schema.depth_pos (s : Schema) : 1 ≤ s.depth := by
  rcases s with ⟨t, p, i, ap⟩
  rw [Schema.depth]
  omega

theorem propsOptDepth_eq (p : Option (List (String × Schema))) :
    propsOptDepth p = propsDepth (p.getD []) := by
  rcases p with _ | ps <;> rfl

theorem depth_le_propsDepth {ps : List (String × Schema)} {k : String}
    {v : Schema} (h : (k, v) ∈ ps) : v.depth ≤ propsDepth ps := by
  induction ps with
  | nil => simp at h
  | cons q rest ih =>
    obtain ⟨k0, v0⟩ := q
    rcases List.mem_cons.1 h with h' | h'
    · rw [propsDepth]
      have : v0 = v := congrArg Prod.snd h'.symm
      subst this
      exact Nat.le_max_left _ _
    · rw [propsDepth]
      exact le_trans (ih h') (Nat.le_max_right _ _)

theorem depth_lt_of_mem_props {s : Schema} {k : String} {v : Schema}
    (h : (k, v) ∈ s.props) : v.depth < s.depth := by
  rcases s with ⟨t, p, i, ap⟩
  rw [Schema.depth, propsOptDepth_eq]
  have hmem2 : (k, v) ∈ p.getD [] := h
  have := depth_le_propsDepth hmem2
  omega

theorem depth_lt_of_items {s i : Schema} (h : s.itemsOpt = some i) :
    i.depth < s.depth := by
  rcases s with ⟨t, p, it, ap⟩
  rw [Schema.itemsOpt] at h
  subst h
  rw [Schema.depth, itemsDepth]
  omega

theorem schemasDepth_cons (s : Schema) (l : List Schema) :
    schemasDepth (s :: l) = max s.depth (schemasDepth l) := rfl

theorem depth_le_schemasDepth {s : Schema} {l : List Schema} (h : s ∈ l) :
    s.depth ≤ schemasDepth l := by
  induction l with
  | nil => simp at h
  | cons x rest ih =>
    rw [schemasDepth_cons]
    rcases List.mem_cons.1 h with rfl | h'
    · exact Nat.le_max_left _ _
    · exact le_trans (ih h') (Nat.le_max_right _ _)

theorem schemasDepth_pair (a b : Schema) :
    schemasDepth [a, b] = max a.depth b.depth := by
  simp [schemasDepth_cons, schemasDepth]

theorem schemasDepth_self_pair (a : Schema) :
    schemasDepth [a, a] = a.depth := by
  simp [schemasDepth_pair]

/-! ## Structural equivalence of schemas -/

/-- Structural identity of two schemas in the sense of the specification's
commutativity property: equal `"type"` entries, equal
`"additionalProperties"` entries, `"properties"` keys present in both or
neither and denoting extensionally equal mappings with recursively
equivalent values, and recursively equivalent `"items"` entries.  (Two
Python dicts with the same keys and values compare equal regardless of
insertion order, so this is exactly Python's `==` on the produced schema
dicts.) -/
inductive SEquiv : Schema → Schema → Prop where
  | intro (a b : Schema)
      (hty : a.typeJ = b.typeJ)
      (hsome : a.propsOpt.isSome = b.propsOpt.isSome)
      (hap : a.addPropsOpt = b.addPropsOpt)
      (hkeys : ∀ k, (lookupKV a.props k).isSome = (lookupKV b.props k).isSome)
      (hlk : ∀ k v w, lookupKV a.props k = some v →
        lookupKV b.props k = some w → SEquiv v w)
      (hitsome : a.itemsOpt.isSome = b.itemsOpt.isSome)
      (hit : ∀ i j, a.itemsOpt = some i → b.itemsOpt = some j → SEquiv i j) :
      SEquiv a b

theorem SEquiv.refl_aux : ∀ n (s : Schema), s.depth ≤ n → SEquiv s s := by
  intro n
  induction n with
  | zero => intro s h; have := s.depth_pos; omega
  | succ n ih =>
    intro s h
    refine SEquiv.intro s s rfl rfl rfl (fun k => rfl) ?_ rfl ?_
    · intro k v w hv hw
      have hvw : v = w := by rw [hv] at hw; exact Option.some.inj hw
      subst hvw
      refine ih v ?_
      have := depth_lt_of_mem_props (lookupKV_mem hv)
      omega
    · intro i j hi hj
      have hij : i = j := by rw [hi] at hj; exact Option.some.inj hj
      subst hij
      refine ih i ?_
      have := depth_lt_of_items hi
      omega

theorem SEquiv.refl (s : Schema) : SEquiv s s :=
  SEquiv.refl_aux s.depth s le_rfl

/-! ## Structure of a merge step -/

/-- The type tags collected by the first loop of `_merge_schemas`, with the
unconditional trailing `"null"`. -/
def allTags (schemas : List Schema) : List String :=
  (schemas.flatMap fun s => s.typeJ.tags) ++ ["null"]

theorem mergeF_succ_eq (f : Nat) (schemas : List Schema) :
    mergeF (f + 1) schemas =
      .mk (.list (sortDedup (allTags schemas)))
        (if "object" ∈ allTags schemas then
          some (mergeProps (fun a b => mergeF f [a, b]) schemas)
        else none)
        (if "array" ∈ allTags schemas then
          if (schemas.filterMap Schema.itemsOpt).isEmpty then none
          else some (mergeF f (schemas.filterMap Schema.itemsOpt))
        else none)
        (if "object" ∈ allTags schemas then some false else none) := rfl

theorem mem_allTags {x : String} {schemas : List Schema} :
    x ∈ allTags schemas ↔ (∃ s ∈ schemas, x ∈ s.typeJ.tags) ∨ x = "null" := by
  simp [allTags, List.mem_flatMap]

theorem mem_allTags_pair {x : String} {a b : Schema} :
    x ∈ allTags [a, b] ↔ x ∈ a.typeJ.tags ∨ x ∈ b.typeJ.tags ∨ x = "null" := by
  simp [mem_allTags]
  tauto

theorem mem_allTags_swap {x : String} {a b : Schema} :
    x ∈ allTags [a, b] ↔ x ∈ allTags [b, a] := by
  rw [mem_allTags_pair, mem_allTags_pair]
  tauto

/-! ## Inversion lemmas for well-formed schemas -/

theorem Schema.WF.nodupKeys {s : Schema} (h : s.WF) :
    (s.props.map Prod.fst).Nodup := by
  rcases s with ⟨t, p, i, ap⟩
  cases h
  assumption

theorem Schema.WF.propsIffObject {s : Schema} (h : s.WF) :
    s.propsOpt.isSome = true ↔ "object" ∈ s.typeJ.tags := by
  rcases s with ⟨t, p, i, ap⟩
  cases h
  assumption

theorem Schema.WF.addPropsEq {s : Schema} (h : s.WF) :
    s.addPropsOpt = if "object" ∈ s.typeJ.tags then some false else none := by
  rcases s with ⟨t, p, i, ap⟩
  cases h
  assumption

theorem Schema.WF.arrayOfItems {s : Schema} (h : s.WF) :
    ∀ i, s.itemsOpt = some i → "array" ∈ s.typeJ.tags := by
  rcases s with ⟨t, p, i, ap⟩
  cases h
  assumption

theorem Schema.WF.propsWF {s : Schema} (h : s.WF) :
    ∀ k v, (k, v) ∈ s.props → Schema.WF v := by
  rcases s with ⟨t, p, i, ap⟩
  cases h
  assumption

theorem Schema.WF.itemsWF {s : Schema} (h : s.WF) :
    ∀ i, s.itemsOpt = some i → Schema.WF i := by
  rcases s with ⟨t, p, i, ap⟩
  cases h
  assumption

/-! ## The merge preserves well-formedness -/

theorem nodup_keys_mergePropsFrom {m : Schema → Schema → Schema}
    {schemas : List Schema} {acc : List (String × Schema)}
    (h : (acc.map Prod.fst).Nodup) :
    ((schemas.foldl (fun acc s =>
        match s.propsOpt with
        | none => acc
        | some ps => insertAll m acc ps) acc).map Prod.fst).Nodup := by
  induction schemas generalizing acc with
  | nil => exact h
  | cons s rest ih =>
    rw [List.foldl_cons, mergePropsStep]
    exact ih (nodup_keys_insertAll h)

theorem nodup_keys_mergeProps {m : Schema → Schema → Schema}
    {schemas : List Schema} :
    ((mergeProps m schemas).map Prod.fst).Nodup :=
  nodup_keys_mergePropsFrom (by simp)

theorem mergePropsFrom_values {m : Schema → Schema → Schema} {P : Schema → Prop}
    {schemas : List Schema} {acc : List (String × Schema)}
    (hacc : ∀ p ∈ acc, P p.2)
    (hs : ∀ s ∈ schemas, ∀ p ∈ s.props, P p.2)
    (hm : ∀ a b, P a → P b → P (m a b)) :
    ∀ p ∈ schemas.foldl (fun acc s =>
        match s.propsOpt with
        | none => acc
        | some ps => insertAll m acc ps) acc, P p.2 := by
  induction schemas generalizing acc with
  | nil => exact hacc
  | cons s rest ih =>
    rw [List.foldl_cons, mergePropsStep]
    exact ih
      (insertAll_values hacc (hs s (List.mem_cons_self _ _)) hm)
      (fun t ht => hs t (List.mem_cons_of_mem _ ht))

theorem mergeProps_values {m : Schema → Schema → Schema} {P : Schema → Prop}
    {schemas : List Schema}
    (hs : ∀ s ∈ schemas, ∀ p ∈ s.props, P p.2)
    (hm : ∀ a b, P a → P b → P (m a b)) :
    ∀ p ∈ mergeProps m schemas, P p.2 :=
  mergePropsFrom_values (by simp) hs hm

theorem mergeF_wf : ∀ (f : Nat) (schemas : List Schema),
    (∀ s ∈ schemas, s.WF) → (mergeF f schemas).WF := by
  intro f
  induction f with
  | zero =>
    intro schemas _
    refine Schema.WF.intro _ _ _ _ (by simp) (by simp [JType.tags]) ?_ ?_ ?_ ?_
    · simp [JType.tags]
    · intro s hs; cases hs
    · intro k v hv; simp at hv
    · intro s hs; cases hs
  | succ f ih =>
    intro schemas hwf
    rw [mergeF_succ_eq]
    have hmem : ∀ x, x ∈ (JType.list (sortDedup (allTags schemas))).tags ↔
        x ∈ allTags schemas := fun x => mem_sortDedup
    refine Schema.WF.intro _ _ _ _ ?_ ?_ ?_ ?_ ?_ ?_
    · by_cases h : "object" ∈ allTags schemas
      · simpa [Schema.props, Schema.propsOpt, h] using
          (nodup_keys_mergeProps :
            ((mergeProps (fun a b => mergeF f [a, b]) schemas).map
              Prod.fst).Nodup)
      · simp [Schema.props, Schema.propsOpt, h]
    · by_cases h : "object" ∈ allTags schemas <;>
        simp [h, hmem "object"]
    · by_cases h : "object" ∈ allTags schemas <;>
        simp [h, hmem "object", JType.tags, mem_sortDedup]
    · intro i hi
      by_cases h : "array" ∈ allTags schemas
      · simpa [JType.tags, mem_sortDedup] using h
      · simp [h] at hi
    · intro k v hv
      by_cases h : "object" ∈ allTags schemas
      · simp only [Schema.props, Schema.propsOpt, h, if_true, Option.getD_some] at hv
        refine mergeProps_values ?_ ?_ (k, v) hv
        · intro s hs p hp
          exact (hwf s hs).propsWF p.1 p.2 (by simpa using hp)
        · intro a b ha hb
          exact ih [a, b] (by
            intro s hs
            rcases List.mem_cons.1 hs with rfl | hs'
            · exact ha
            · rcases List.mem_cons.1 hs' with rfl | hs''
              · exact hb
              · cases hs'')
      · simp [Schema.props, Schema.propsOpt, h] at hv
    · intro i hi
      by_cases h : "array" ∈ allTags schemas
      · simp only [Schema.itemsOpt, h, if_true] at hi
        by_cases he : (schemas.filterMap Schema.itemsOpt).isEmpty
        · simp [he] at hi
        · simp only [he, if_false] at hi
          cases hi
          refine ih _ ?_
          intro s hs
          rcases List.mem_filterMap.1 hs with ⟨t, ht, hts⟩
          exact (hwf t ht).itemsWF s hts
      · simp [h] at hi

/-! ## Well-formedness of the value typer's output -/

mutual

/-- Nesting depth of a value. -/
def Value.vdepth : Value → Nat
  | .null => 1
  | .bool _ => 1
  | .int _ => 1
  | .float => 1
  | .str _ => 1
  | .obj fields => 1 + fieldsDepth fields
  | .arr elems => 1 + elemsDepth elems

/-- Maximal depth of the values of a field list. -/
def fieldsDepth : List (String × Value) → Nat
  | [] => 0
  | (_, v) :: rest => max v.vdepth (fieldsDepth rest)

/-- Maximal depth of the elements of an array. -/
def elemsDepth : List Value → Nat
  | [] => 0
  | v :: rest => max v.vdepth (elemsDepth rest)

end

theorem vdepth_le_fieldsDepth {fields : List (String × Value)} {k : String}
    {v : Value} (h : (k, v) ∈ fields) : v.vdepth ≤ fieldsDepth fields := by
  induction fields with
  | nil => simp at h
  | cons q rest ih =>
    obtain ⟨k0, v0⟩ := q
    rcases List.mem_cons.1 h with h' | h'
    · rw [fieldsDepth]
      have : v0 = v := congrArg Prod.snd h'.symm
      subst this
      exact Nat.le_max_left _ _
    · rw [fieldsDepth]
      exact le_trans (ih h') (Nat.le_max_right _ _)

theorem vdepth_lt_obj {fields : List (String × Value)} {k : String}
    {v : Value} (h : (k, v) ∈ fields) :
    v.vdepth < (Value.obj fields).vdepth := by
  rw [Value.vdepth]
  have := vdepth_le_fieldsDepth h
  omega

theorem vdepth_lt_arr_head {v : Value} {rest : List Value} :
    v.vdepth < (Value.arr (v :: rest)).vdepth := by
  rw [Value.vdepth, elemsDepth]
  have : v.vdepth ≤ max v.vdepth (elemsDepth rest) := Nat.le_max_left _ _
  omega

theorem wfFields_mem {fields : List (String × Value)} {k : String} {v : Value}
    (hwf : wfFields fields = true) (h : (k, v) ∈ fields) :
    v.wfB = true := by
  induction fields with
  | nil => simp at h
  | cons q rest ih =>
    obtain ⟨k0, v0⟩ := q
    rw [wfFields, Bool.and_eq_true] at hwf
    rcases List.mem_cons.1 h with h' | h'
    · have : v0 = v := congrArg Prod.snd h'.symm
      subst this
      exact hwf.1
    · exact ih hwf.2 h'

theorem keys_typeOfFields (fields : List (String × Value)) :
    (typeOfFields fields).map Prod.fst = fields.map Prod.fst := by
  induction fields with
  | nil => rfl
  | cons q rest ih =>
    obtain ⟨k0, v0⟩ := q
    rw [typeOfFields]
    simpa using ih

theorem mem_typeOfFields {fields : List (String × Value)} {k : String}
    {s : Schema} (h : (k, s) ∈ typeOfFields fields) :
    ∃ v, (k, v) ∈ fields ∧ s = typeOf v := by
  induction fields with
  | nil => simp [typeOfFields] at h
  | cons q rest ih =>
    obtain ⟨k0, v0⟩ := q
    rw [typeOfFields] at h
    rcases List.mem_cons.1 h with h' | h'
    · have hk : k0 = k := congrArg Prod.fst h'.symm
      subst hk
      have hs : typeOf v0 = s := congrArg Prod.snd h'.symm
      exact ⟨v0, List.mem_cons_self _ _, hs.symm⟩
    · rcases ih h' with ⟨v, hv, hs⟩
      exact ⟨v, List.mem_cons_of_mem _ hv, hs⟩

/-- A scalar leaf schema is well-formed whenever its tag is not `"object"`. -/
theorem wf_atom {t : String} (h : t ≠ "object") :
    Schema.WF (.mk (.single t) none none none) := by
  refine Schema.WF.intro _ _ _ _ (by simp) ?_ ?_ ?_ ?_ ?_
  · simp [JType.tags, Ne.symm h]
  · simp [JType.tags, Ne.symm h]
  · intro s hs; cases hs
  · intro k v hv; simp at hv
  · intro s hs; cases hs

/-- The fallback items schema of the leading-`null` array quirk is
well-formed. -/
theorem wf_nullQuirkItems :
    Schema.WF (.mk (.single "array") none
      (some (.mk (.single "string") none none none)) none) := by
  refine Schema.WF.intro _ _ _ _ (by simp) ?_ ?_ ?_ ?_ ?_
  · simp [JType.tags]
  · simp [JType.tags]
  · intro s hs
    simp [JType.tags]
  · intro k v hv; simp at hv
  · intro s hs
    cases Option.some.inj hs
    exact wf_atom (by decide)

/-- A non-empty array leaf whose items schema is well-formed is
well-formed. -/
theorem wf_arrayLeaf {it : Schema} (h : it.WF) :
    Schema.WF (.mk (.single "array") none (some it) none) := by
  refine Schema.WF.intro _ _ _ _ (by simp) ?_ ?_ ?_ ?_ ?_
  · simp [JType.tags]
  · simp [JType.tags]
  · intro s hs
    simp [JType.tags]
  · intro k v hv; simp at hv
  · intro s hs
    cases Option.some.inj hs
    exact h

theorem typeOf_wf_aux : ∀ n (v : Value), v.vdepth ≤ n → v.wfB = true →
    (typeOf v).WF := by
  intro n
  induction n with
  | zero =>
    intro v h
    rcases v <;> rw [Value.vdepth] at h <;> omega
  | succ n ih =>
    intro v h hwf
    rcases v with _ | b | i | _ | s | fields | elems
    · exact wf_atom (by decide)
    · exact wf_atom (by decide)
    · exact wf_atom (by decide)
    · exact wf_atom (by decide)
    · exact wf_atom (by decide)
    · rw [Value.wfB, Bool.and_eq_true, decide_eq_true_eq] at hwf
      refine Schema.WF.intro (.single "object") (some (typeOfFields fields))
        none (some false) ?_ ?_ ?_ ?_ ?_ ?_
      · simpa [keys_typeOfFields] using hwf.1
      · simp [JType.tags]
      · simp [JType.tags]
      · intro s hs; cases hs
      · intro k s hs
        simp only [Option.getD_some] at hs
        rcases mem_typeOfFields hs with ⟨v, hv, rfl⟩
        refine ih v ?_ (wfFields_mem hwf.2 hv)
        rw [Value.vdepth] at h
        have := vdepth_lt_obj hv
        rw [Value.vdepth] at this
        omega
      · intro s hs; cases hs
    · rcases elems with _ | ⟨v, rest⟩
      · exact wf_atom (by decide)
      · have hv : v.wfB = true := by
          rw [Value.wfB, wfElems, Bool.and_eq_true] at hwf
          exact hwf.1
        have hvd : v.vdepth ≤ n := by
          have h2 : v.vdepth < (Value.arr (v :: rest)).vdepth :=
            vdepth_lt_arr_head
          omega
        rcases v with _ | b | i | _ | s | fields | elems2
        · rw [show typeOf (Value.arr (Value.null :: rest)) =
              Schema.mk (.single "array") none
                (some (.mk (.single "array") none
                  (some (.mk (.single "string") none none none)) none)) none
              from rfl]
          exact wf_arrayLeaf wf_nullQuirkItems
        · rw [show typeOf (Value.arr (Value.bool b :: rest)) =
              Schema.mk (.single "array") none (some (typeOf (Value.bool b))) none
              from rfl]
          exact wf_arrayLeaf (ih _ hvd hv)
        · rw [show typeOf (Value.arr (Value.int i :: rest)) =
              Schema.mk (.single "array") none (some (typeOf (Value.int i))) none
              from rfl]
          exact wf_arrayLeaf (ih _ hvd hv)
        · rw [show typeOf (Value.arr (Value.float :: rest)) =
              Schema.mk (.single "array") none (some (typeOf Value.float)) none
              from rfl]
          exact wf_arrayLeaf (ih _ hvd hv)
        · rw [show typeOf (Value.arr (Value.str s :: rest)) =
              Schema.mk (.single "array") none (some (typeOf (Value.str s))) none
              from rfl]
          exact wf_arrayLeaf (ih _ hvd hv)
        · rw [show typeOf (Value.arr (Value.obj fields :: rest)) =
              Schema.mk (.single "array") none (some (typeOf (Value.obj fields))) none
              from rfl]
          exact wf_arrayLeaf (ih _ hvd hv)
        · rw [show typeOf (Value.arr (Value.arr elems2 :: rest)) =
              Schema.mk (.single "array") none (some (typeOf (Value.arr elems2))) none
              from rfl]
          exact wf_arrayLeaf (ih _ hvd hv)

/-- The leaf schema inferred for a well-formed value is well-formed. -/
theorem typeOf_wf {v : Value} (h : v.wfB = true) : (typeOf v).WF :=
  typeOf_wf_aux v.vdepth v le_rfl h

/-! ## Commutativity of the merge on two inputs -/

theorem lookupKV_insertAll_nil {m : Schema → Schema → Schema}
    {ps : List (String × Schema)} {k : String}
    (hnd : (ps.map Prod.fst).Nodup) :
    lookupKV (insertAll m [] ps) k = lookupKV ps k := by
  rw [lookupKV_insertAll hnd]
  rcases lookupKV ps k with _ | v <;> rfl

theorem mergeF_pair_comm : ∀ (f : Nat) (a b : Schema), a.WF → b.WF →
    SEquiv (mergeF f [a, b]) (mergeF f [b, a]) := by
  intro f
  induction f with
  | zero => intro a b _ _; exact SEquiv.refl _
  | succ f ih =>
    intro a b ha hb
    have hnda := ha.nodupKeys
    have hndb := hb.nodupKeys
    have hswap : ∀ x : String, x ∈ allTags [a, b] ↔ x ∈ allTags [b, a] :=
      fun x => mem_allTags_swap
    have hL : ∀ k, lookupKV (mergeProps (fun x y => mergeF f [x, y]) [a, b]) k =
        (lookupKV b.props k).elim (lookupKV a.props k)
          (fun v => some ((lookupKV a.props k).elim v
            fun u => mergeF f [u, v])) := by
      intro k
      rw [mergeProps_pair, lookupKV_insertAll hndb, lookupKV_insertAll_nil hnda]
    have hR : ∀ k, lookupKV (mergeProps (fun x y => mergeF f [x, y]) [b, a]) k =
        (lookupKV a.props k).elim (lookupKV b.props k)
          (fun v => some ((lookupKV b.props k).elim v
            fun u => mergeF f [u, v])) := by
      intro k
      rw [mergeProps_pair, lookupKV_insertAll hnda, lookupKV_insertAll_nil hndb]
    have hobjI : ("object" ∈ allTags [a, b]) ↔ ("object" ∈ allTags [b, a]) :=
      hswap "object"
    have harrI : ("array" ∈ allTags [a, b]) ↔ ("array" ∈ allTags [b, a]) :=
      hswap "array"
    rw [mergeF_succ_eq, mergeF_succ_eq]
    refine SEquiv.intro _ _ ?_ ?_ ?_ ?_ ?_ ?_ ?_
    · exact congrArg JType.list (sortDedup_congr hswap)
    · simp only [Schema.propsOpt]
      by_cases hobj : "object" ∈ allTags [a, b]
      · simp [hobj, hobjI.1 hobj]
      · have hobjR : "object" ∉ allTags [b, a] := fun hh => hobj (hobjI.2 hh)
        simp [hobj, hobjR]
    · simp only [Schema.addPropsOpt]
      by_cases hobj : "object" ∈ allTags [a, b]
      · simp [hobj, hobjI.1 hobj]
      · have hobjR : "object" ∉ allTags [b, a] := fun hh => hobj (hobjI.2 hh)
        simp [hobj, hobjR]
    · intro k
      by_cases hobj : "object" ∈ allTags [a, b]
      · simp only [Schema.props, Schema.propsOpt, hobj, hobjI.1 hobj,
          if_true, Option.getD_some]
        rw [hL k, hR k]
        rcases lookupKV a.props k with _ | u <;>
          rcases lookupKV b.props k with _ | v <;> rfl
      · have hobjR : "object" ∉ allTags [b, a] := fun hh => hobj (hobjI.2 hh)
        simp [Schema.props, Schema.propsOpt, hobj, hobjR, lookupKV]
    · intro k v w hv hw
      by_cases hobj : "object" ∈ allTags [a, b]
      · simp only [Schema.props, Schema.propsOpt, hobj, hobjI.1 hobj,
          if_true, Option.getD_some] at hv hw
        rw [hL k] at hv
        rw [hR k] at hw
        rcases hu : lookupKV a.props k with _ | u <;>
          rcases hv2 : lookupKV b.props k with _ | v2 <;>
          rw [hu, hv2] at hv hw <;>
          simp only [Option.elim_none, Option.elim_some] at hv hw
        · cases hv
        · cases Option.some.inj hv
          cases Option.some.inj hw
          exact SEquiv.refl _
        · cases Option.some.inj hv
          cases Option.some.inj hw
          exact SEquiv.refl _
        · cases Option.some.inj hv
          cases Option.some.inj hw
          exact ih u v2
            (ha.propsWF _ _ (lookupKV_mem hu))
            (hb.propsWF _ _ (lookupKV_mem hv2))
      · rw [show (Schema.mk (JType.list (sortDedup (allTags [a, b])))
            (if "object" ∈ allTags [a, b] then
              some (mergeProps (fun a b => mergeF f [a, b]) [a, b]) else none)
            (if "array" ∈ allTags [a, b] then
              if (List.filterMap Schema.itemsOpt [a, b]).isEmpty = true then none
              else some (mergeF f (List.filterMap Schema.itemsOpt [a, b]))
            else none)
            (if "object" ∈ allTags [a, b] then some false else none)).props =
            (if "object" ∈ allTags [a, b] then
              some (mergeProps (fun a b => mergeF f [a, b]) [a, b])
             else none).getD [] from rfl, if_neg hobj] at hv
        cases hv
    · simp only [Schema.itemsOpt]
      by_cases harr : "array" ∈ allTags [a, b]
      · rcases hia : a.itemsOpt with _ | ia <;>
          rcases hib : b.itemsOpt with _ | ib <;>
          simp [harr, harrI.1 harr, List.filterMap_cons, hia, hib]
      · have harrR : "array" ∉ allTags [b, a] := fun hh => harr (harrI.2 hh)
        simp [harr, harrR]
    · intro i j hi hj
      by_cases harr : "array" ∈ allTags [a, b]
      · simp only [Schema.itemsOpt, harr, harrI.1 harr, if_true] at hi hj
        rcases hia : a.itemsOpt with _ | ia <;>
          rcases hib : b.itemsOpt with _ | ib <;>
          simp only [List.filterMap_cons, hia, hib, List.filterMap_nil,
            List.isEmpty_nil, List.isEmpty_cons, if_true, if_false,
            reduceIte] at hi hj
        · cases hi
        · cases Option.some.inj hi
          cases Option.some.inj hj
          exact SEquiv.refl _
        · cases Option.some.inj hi
          cases Option.some.inj hj
          exact SEquiv.refl _
        · cases Option.some.inj hi
          cases Option.some.inj hj
          exact ih ia ib (ha.itemsWF _ hia) (hb.itemsWF _ hib)
      · simp only [Schema.itemsOpt, if_neg harr] at hi
        cases hi

/-- `merge` on two schemas is commutative up to structural identity. -/
theorem merge_pair_comm (a b : Schema) (ha : a.WF) (hb : b.WF) :
    SEquiv (merge [a, b]) (merge [b, a]) := by
  unfold merge
  rw [show schemasDepth [b, a] = schemasDepth [a, b] from by
    rw [schemasDepth_pair, schemasDepth_pair, Nat.max_comm]]
  exact mergeF_pair_comm _ a b ha hb

theorem Schema.typeJ_mk (t : JType) (p : Option (List (String × Schema)))
    (i : Option Schema) (ap : Option Bool) :
    (Schema.mk t p i ap).typeJ = t := rfl

theorem JType.tags_list (l : List String) : (JType.list l).tags = l := rfl

theorem Schema.propsOpt_mk (t : JType) (p : Option (List (String × Schema)))
    (i : Option Schema) (ap : Option Bool) :
    (Schema.mk t p i ap).propsOpt = p := rfl

theorem Schema.itemsOpt_mk (t : JType) (p : Option (List (String × Schema)))
    (i : Option Schema) (ap : Option Bool) :
    (Schema.mk t p i ap).itemsOpt = i := rfl

theorem Schema.addPropsOpt_mk (t : JType) (p : Option (List (String × Schema)))
    (i : Option Schema) (ap : Option Bool) :
    (Schema.mk t p i ap).addPropsOpt = ap := rfl

theorem Schema.props_mk (t : JType) (p : Option (List (String × Schema)))
    (i : Option Schema) (ap : Option Bool) :
    (Schema.mk t p i ap).props = p.getD [] := rfl

/-! ## Idempotence of the re-merge, up to the guaranteed null -/

/-- Equality of schemas up to the guaranteed-present `null` in the type
lists: the type lists agree once normalized to a sorted duplicate-free set
containing `null` (also normalizing a single tag to the one-element list),
and everything else agrees, recursively. -/
inductive EqNull : Schema → Schema → Prop where
  | intro (a b : Schema)
      (hty : sortDedup (a.typeJ.tags ++ ["null"]) =
        sortDedup (b.typeJ.tags ++ ["null"]))
      (hsome : a.propsOpt.isSome = b.propsOpt.isSome)
      (hap : a.addPropsOpt = b.addPropsOpt)
      (hkeys : ∀ k, (lookupKV a.props k).isSome = (lookupKV b.props k).isSome)
      (hlk : ∀ k v w, lookupKV a.props k = some v →
        lookupKV b.props k = some w → EqNull v w)
      (hitsome : a.itemsOpt.isSome = b.itemsOpt.isSome)
      (hit : ∀ i j, a.itemsOpt = some i → b.itemsOpt = some j → EqNull i j) :
      EqNull a b

theorem mergeF_self_eqNull : ∀ (f : Nat) (x : Schema), x.WF → x.depth < f →
    EqNull (mergeF f [x, x]) x := by
  intro f
  induction f with
  | zero => intro x _ h; omega
  | succ f ih =>
    intro x hx h
    have hnd := hx.nodupKeys
    have hmem : ∀ y, y ∈ allTags [x, x] ↔ y ∈ x.typeJ.tags ∨ y = "null" := by
      intro y
      rw [mem_allTags_pair]
      tauto
    have hobjI : ("object" ∈ allTags [x, x]) ↔ "object" ∈ x.typeJ.tags := by
      rw [hmem]
      simp
    have harrI : ("array" ∈ allTags [x, x]) ↔ "array" ∈ x.typeJ.tags := by
      rw [hmem]
      simp
    have hLlk : ∀ k, lookupKV (mergeProps (fun u v => mergeF f [u, v]) [x, x]) k =
        (lookupKV x.props k).elim (lookupKV x.props k)
          (fun v => some ((lookupKV x.props k).elim v
            fun u => mergeF f [u, v])) := by
      intro k
      rw [mergeProps_pair, lookupKV_insertAll hnd, lookupKV_insertAll_nil hnd]
    rw [mergeF_succ_eq]
    refine EqNull.intro _ _ ?_ ?_ ?_ ?_ ?_ ?_ ?_
    · rw [Schema.typeJ_mk, JType.tags_list]
      refine sortDedup_congr ?_
      intro y
      simp only [List.mem_append, mem_sortDedup, hmem, List.mem_singleton]
      tauto
    · rw [Schema.propsOpt_mk]
      by_cases hobj : "object" ∈ x.typeJ.tags
      · rw [if_pos (hobjI.2 hobj)]
        rcases hps : x.propsOpt with _ | ps
        · exact absurd (hx.propsIffObject.2 hobj) (by simp [hps])
        · rfl
      · rw [if_neg (fun hh => hobj (hobjI.1 hh))]
        rcases hps : x.propsOpt with _ | ps
        · rfl
        · exact absurd (hx.propsIffObject.1 (by simp [hps])) hobj
    · rw [Schema.addPropsOpt_mk, hx.addPropsEq]
      by_cases hobj : "object" ∈ x.typeJ.tags
      · rw [if_pos (hobjI.2 hobj), if_pos hobj]
      · rw [if_neg (fun hh => hobj (hobjI.1 hh)), if_neg hobj]
    · intro k
      by_cases hobj : "object" ∈ x.typeJ.tags
      · simp only [Schema.props_mk, if_pos (hobjI.2 hobj), Option.getD_some]
        rw [hLlk k]
        rcases lookupKV x.props k with _ | u <;> rfl
      · have hpnone : x.propsOpt = none := by
          rcases hps : x.propsOpt with _ | ps
          · rfl
          · exact absurd (hx.propsIffObject.1 (by simp [hps])) hobj
        simp only [Schema.props_mk, if_neg (fun hh => hobj (hobjI.1 hh)),
          Option.getD_none]
        rw [Schema.props, hpnone]
        rfl
    · intro k v w hv hw
      by_cases hobj : "object" ∈ x.typeJ.tags
      · simp only [Schema.props_mk, if_pos (hobjI.2 hobj),
          Option.getD_some] at hv
        rw [hLlk k, hw] at hv
        simp only [Option.elim_some] at hv
        cases Option.some.inj hv
        refine ih w (hx.propsWF _ _ (lookupKV_mem hw)) ?_
        have := depth_lt_of_mem_props (lookupKV_mem hw)
        omega
      · rw [show (Schema.mk (JType.list (sortDedup (allTags [x, x])))
            (if "object" ∈ allTags [x, x] then
              some (mergeProps (fun a b => mergeF f [a, b]) [x, x]) else none)
            (if "array" ∈ allTags [x, x] then
              if (List.filterMap Schema.itemsOpt [x, x]).isEmpty = true then none
              else some (mergeF f (List.filterMap Schema.itemsOpt [x, x]))
            else none)
            (if "object" ∈ allTags [x, x] then some false else none)).props =
            (if "object" ∈ allTags [x, x] then
              some (mergeProps (fun a b => mergeF f [a, b]) [x, x])
             else none).getD [] from rfl,
          if_neg (fun hh => hobj (hobjI.1 hh))] at hv
        cases hv
    · rw [Schema.itemsOpt_mk]
      rcases hit : x.itemsOpt with _ | i
      · by_cases harr : "array" ∈ allTags [x, x]
        · simp [harr, List.filterMap_cons, hit]
        · simp [harr, hit]
      · have harr : "array" ∈ allTags [x, x] :=
          harrI.2 (hx.arrayOfItems i hit)
        simp [harr, List.filterMap_cons, hit]
    · intro i j hi hj
      rw [Schema.itemsOpt] at hi
      rcases hit : x.itemsOpt with _ | i0
      · by_cases harr : "array" ∈ allTags [x, x]
        · rw [if_pos harr] at hi
          simp [List.filterMap_cons, hit] at hi
        · rw [if_neg harr] at hi
          cases hi
      · rw [hit] at hj
        have hj2 : i0 = j := Option.some.inj hj
        subst hj2
        have harr : "array" ∈ allTags [x, x] :=
          harrI.2 (hx.arrayOfItems i0 hit)
        rw [if_pos harr] at hi
        simp only [List.filterMap_cons, hit, List.filterMap_nil,
          List.isEmpty_cons, if_false, Bool.false_eq_true, reduceIte] at hi
        cases Option.some.inj hi
        refine ih i0 (hx.itemsWF i0 hit) ?_
        have := depth_lt_of_items hit
        omega

/-- Re-merging a merged schema with itself changes it only up to the
guaranteed-present `null` normalization. -/
theorem merge_self_eqNull (x : Schema) (hx : x.WF) :
    EqNull (merge [x, x]) x := by
  unfold merge
  rw [schemasDepth_self_pair]
  exact mergeF_self_eqNull _ x hx (Nat.lt_succ_self _)

/-- `merge` yields a well-formed schema from well-formed inputs. -/
theorem merge_wf (l : List Schema) (h : ∀ s ∈ l, s.WF) : (merge l).WF :=
  mergeF_wf _ l h

/-! ## Lemmas for the sampler -/

theorem inferProperties_eq (rows : List Value) :
    inferProperties rows =
      ((rows.take (min 100 rows.length)).foldl scanRow []).map
        fun kv => (kv.1, merge kv.2) := rfl

theorem scanRow_nonobj {acc : List (String × List Schema)} {r : Value}
    (hr : r.isObj = false) : scanRow acc r = acc := by
  rcases r <;> first
    | rfl
    | (rw [Value.isObj] at hr; cases hr)

/-! ## Lemmas for the unique-property copy -/

/-- Schemas that never mention the key `k` leave its lookup untouched in the
properties fold. -/
theorem foldProps_untouched {m : Schema → Schema → Schema}
    {L : List Schema} {acc : List (String × Schema)} {k : String}
    (h : ∀ t ∈ L, k ∉ t.propKeys) :
    lookupKV (L.foldl (fun acc s =>
      match s.propsOpt with
      | none => acc
      | some ps => insertAll m acc ps) acc) k = lookupKV acc k := by
  induction L generalizing acc with
  | nil => rfl
  | cons t rest ih =>
    rw [List.foldl_cons, mergePropsStep]
    rw [ih (fun u hu => h u (List.mem_cons_of_mem _ hu))]
    exact lookupKV_insertAll_not_mem (h t (List.mem_cons_self _ _))

/-! ## Lemmas for the stream-name sanitizer -/

theorem natDigit_allowed (d : Nat) : allowedChar (natDigit d) = true := by
  rcases d with _|_|_|_|_|_|_|_|_|d9
  all_goals first
    | decide
    | exact (by decide : allowedChar '9' = true)

theorem natDigitsAux_allowed : ∀ (fuel n : Nat) (acc : List Char),
    (∀ c ∈ acc, allowedChar c = true) →
    ∀ c ∈ natDigitsAux fuel n acc, allowedChar c = true := by
  intro fuel
  induction fuel with
  | zero => intro n acc hacc; exact hacc
  | succ fuel ih =>
    intro n acc hacc c hc
    rw [natDigitsAux] at hc
    by_cases hn : n < 10
    · rw [if_pos hn] at hc
      rcases List.mem_cons.1 hc with rfl | hc'
      · exact natDigit_allowed _
      · exact hacc c hc'
    · rw [if_neg hn] at hc
      refine ih (n / 10) _ ?_ c hc
      intro c' hc'
      rcases List.mem_cons.1 hc' with rfl | hc''
      · exact natDigit_allowed _
      · exact hacc c' hc''

theorem natDigits_allowed {n : Nat} : ∀ c ∈ natDigits n, allowedChar c = true :=
  natDigitsAux_allowed (n + 1) n [] (by simp)

theorem queryFallback_allowed {qid : Nat} :
    ∀ c ∈ queryFallback qid, allowedChar c = true := by
  intro c hc
  rcases List.mem_append.1 hc with hc' | hc'
  · have hq : ∀ x ∈ "query_".data, allowedChar x = true := by decide
    exact hq c hc'
  · exact natDigits_allowed c hc'

theorem allowedChar_ascii {c : Char} (h : allowedChar c = true) :
    c.toNat < 128 := by
  simp only [allowedChar, Bool.or_eq_true, Bool.and_eq_true,
    decide_eq_true_eq, beq_iff_eq] at h
  rcases h with (⟨h1, h2⟩ | ⟨h1, h2⟩) | h1
  · have h3 : c.toNat ≤ 122 := h2
    omega
  · have h3 : c.toNat ≤ 57 := h2
    omega
  · subst h1
    decide

theorem pyLower_allowed {c : Char} (hascii : c.toNat < 128)
    (h : (pyIsAlnum c || c == '_') = true) :
    allowedChar (pyLower c) = true := by
  rw [pyIsAlnum] at h
  simp only [Bool.or_eq_true, Bool.and_eq_true, decide_eq_true_eq,
    beq_iff_eq] at h
  have hA : c ≠ 'Ä' := fun hEq => absurd (hEq ▸ hascii) (by decide)
  have ha2 : c ≠ 'ä' := fun hEq => absurd (hEq ▸ hascii) (by decide)
  by_cases hup : 'A' ≤ c ∧ c ≤ 'Z'
  · rw [pyLower, if_pos hup]
    have h1 : 65 ≤ c.toNat := hup.1
    have h2 : c.toNat ≤ 90 := hup.2
    obtain ⟨n, hn⟩ : ∃ n, c.toNat = n := ⟨_, rfl⟩
    rw [hn] at h1 h2 ⊢
    clear hn hup h hA ha2 hascii
    interval_cases n <;> decide
  · rw [pyLower, if_neg hup, if_neg hA]
    simp only [allowedChar, Bool.or_eq_true, Bool.and_eq_true,
      decide_eq_true_eq, beq_iff_eq]
    tauto

theorem queryFallback_ascii {qid : Nat} :
    ∀ c ∈ queryFallback qid, c.toNat < 128 :=
  fun c hc => allowedChar_ascii (queryFallback_allowed c hc)

theorem sanitizeData_allowed {l : List Char}
    (hascii : ∀ c ∈ l, c.toNat < 128) :
    ∀ c ∈ sanitizeData l, allowedChar c = true := by
  intro c hc
  rw [sanitizeData] at hc
  rcases List.mem_map.1 hc with ⟨c0, hc0, rfl⟩
  have hmem := (List.mem_filter.1 hc0).1
  rcases List.mem_map.1 hmem with ⟨c1, hc1, rfl⟩
  rcases List.mem_map.1 hc1 with ⟨c2, hc2, rfl⟩
  refine pyLower_allowed ?_ (List.mem_filter.1 hc0).2
  have h2 := hascii c2 hc2
  show (if (if c2 = ' ' then '_' else c2) = '-' then '_'
    else (if c2 = ' ' then '_' else c2)).toNat < 128
  by_cases hsp : c2 = ' '
  · subst hsp
    decide
  · rw [if_neg hsp]
    by_cases hda : c2 = '-'
    · subst hda
      decide
    · rw [if_neg hda]
      exact h2

/-! ## Claim theorems -/

/-- C10: merging the empty sequence of schemas does not fail and returns
exactly the schema `{"type": ["null"]}` with no `properties`, `items` or
`additionalProperties` keys. -/
theorem claim10_merge_empty :
    merge [] = Schema.mk (.list ["null"]) none none none := rfl

/-- C6: for every non-empty array value whose first element is `null`,
`typeOf` returns exactly
`{"type":"array","items":{"type":"array","items":{"type":"string"}}}`,
independently of the later elements. -/
theorem claim6_leading_null_array (rest : List Value) :
    typeOf (.arr (.null :: rest)) =
      Schema.mk (.single "array") none
        (some (.mk (.single "array") none
          (some (.mk (.single "string") none none none)) none)) none := rfl

/-- C1 (counterexample): on the rows
`[{"meta": {"x": 1}}, {"meta": {"x": 2, "y": "z"}}]` the inferred schema
for `meta` is NOT the one the specification's nested example states — the
nested property `y` does not get the type list `["null","string"]`. -/
theorem claim1_counterexample :
    inferProperties
      [Value.obj [("meta", Value.obj [("x", Value.int 1)])],
       Value.obj [("meta", Value.obj [("x", Value.int 2), ("y", Value.str "z")])]] ≠
    [("meta", Schema.mk (.list ["null", "object"])
      (some [("x", Schema.mk (.list ["integer", "null"]) none none none),
             ("y", Schema.mk (.list ["null", "string"]) none none none)])
      none (some false))] := by
  intro h
  rw [show inferProperties
      [Value.obj [("meta", Value.obj [("x", Value.int 1)])],
       Value.obj [("meta", Value.obj [("x", Value.int 2), ("y", Value.str "z")])]] =
    [("meta", Schema.mk (.list ["null", "object"])
      (some [("x", Schema.mk (.list ["integer", "null"]) none none none),
             ("y", Schema.mk (.single "string") none none none)])
      none (some false))] from rfl] at h
  simp at h

/-- C1 (amended): on the rows
`[{"meta": {"x": 1}}, {"meta": {"x": 2, "y": "z"}}]` the field `meta` merges
to `{"type":["null","object"], "properties": {"x": {"type":["integer","null"]},
"y": {"type":"string"}}, "additionalProperties": false}` — the nested
property `y`, present in only one sampled row, is copied unchanged with the
single type tag `"string"` (no `null` added, no list normalization). -/
theorem claim1_nested_example_amended :
    inferProperties
      [Value.obj [("meta", Value.obj [("x", Value.int 1)])],
       Value.obj [("meta", Value.obj [("x", Value.int 2), ("y", Value.str "z")])]] =
    [("meta", Schema.mk (.list ["null", "object"])
      (some [("x", Schema.mk (.list ["integer", "null"]) none none none),
             ("y", Schema.mk (.single "string") none none none)])
      none (some false))] := rfl

/-- C5: for every non-empty input sequence of schemas, the type list of the
merged schema contains `"null"`, and it is sorted (in the lexicographic
code-point order Python's `sorted` uses on strings) with no duplicates. -/
theorem claim5_null_and_sorted (schemas : List Schema) (h : schemas ≠ []) :
    "null" ∈ (merge schemas).typeJ.tags ∧
    List.Sorted strLeR (merge schemas).typeJ.tags ∧
    (merge schemas).typeJ.tags.Nodup := by
  rw [merge, mergeF_succ_eq, Schema.typeJ_mk, JType.tags_list]
  refine ⟨?_, sorted_sortDedup _, nodup_sortDedup _⟩
  rw [mem_sortDedup]
  simp [allTags]

theorem claim5_null_and_sorted_witness :
    ([Schema.mk (.single "integer") none none none] ≠ ([] : List Schema)) ∧
    ("null" ∈ (merge [Schema.mk (.single "integer") none none none]).typeJ.tags ∧
     List.Sorted strLeR (merge [Schema.mk (.single "integer") none none none]).typeJ.tags ∧
     (merge [Schema.mk (.single "integer") none none none]).typeJ.tags.Nodup) :=
  ⟨by simp, claim5_null_and_sorted _ (by simp)⟩

/-- C3: for every two leaf schemas (outputs of the value typer on
well-formed values), merging them in either order produces structurally
identical merged schemas: the same type list, extensionally the same
properties mapping with recursively identical values, the same items
schema, and the same `additionalProperties` entry. -/
theorem claim3_merge_comm (v₁ v₂ : Value)
    (h₁ : v₁.wfB = true) (h₂ : v₂.wfB = true) :
    SEquiv (merge [typeOf v₁, typeOf v₂]) (merge [typeOf v₂, typeOf v₁]) :=
  merge_pair_comm _ _ (typeOf_wf h₁) (typeOf_wf h₂)

theorem claim3_merge_comm_witness :
    Value.wfB (.obj [("a", .int 1)]) = true ∧
    Value.wfB (.obj [("a", .str "x"), ("b", .bool true)]) = true ∧
    SEquiv
      (merge [typeOf (.obj [("a", .int 1)]),
              typeOf (.obj [("a", .str "x"), ("b", .bool true)])])
      (merge [typeOf (.obj [("a", .str "x"), ("b", .bool true)]),
              typeOf (.obj [("a", .int 1)])]) :=
  ⟨by decide, by decide, claim3_merge_comm _ _ (by decide) (by decide)⟩

/-- C4: for every two leaf schemas `a`, `b` (outputs of the value typer on
well-formed values), `merge([merge([a,b]), merge([a,b])])` equals
`merge([a,b])` up to the guaranteed-present `null` in the (nested) type
lists. -/
theorem claim4_remerge_idem (v₁ v₂ : Value)
    (h₁ : v₁.wfB = true) (h₂ : v₂.wfB = true) :
    EqNull (merge [merge [typeOf v₁, typeOf v₂], merge [typeOf v₁, typeOf v₂]])
      (merge [typeOf v₁, typeOf v₂]) := by
  refine merge_self_eqNull _ (merge_wf _ ?_)
  intro s hs
  rcases List.mem_cons.1 hs with rfl | hs'
  · exact typeOf_wf h₁
  · rcases List.mem_cons.1 hs' with rfl | hs''
    · exact typeOf_wf h₂
    · cases hs''

theorem claim4_remerge_idem_witness :
    Value.wfB (.obj [("a", .int 1)]) = true ∧
    Value.wfB (.obj [("a", .str "x")]) = true ∧
    EqNull
      (merge [merge [typeOf (.obj [("a", .int 1)]), typeOf (.obj [("a", .str "x")])],
              merge [typeOf (.obj [("a", .int 1)]), typeOf (.obj [("a", .str "x")])]])
      (merge [typeOf (.obj [("a", .int 1)]), typeOf (.obj [("a", .str "x")])]) :=
  ⟨by decide, by decide, claim4_remerge_idem _ _ (by decide) (by decide)⟩

/-- C7: two row sequences of length at least 100 that agree on their first
100 rows produce identical inference results — rows beyond the sample cap
never influence the output. -/
theorem claim7_sample_cap (rows₁ rows₂ : List Value)
    (h₁ : 100 ≤ rows₁.length) (h₂ : 100 ≤ rows₂.length)
    (h : rows₁.take 100 = rows₂.take 100) :
    inferProperties rows₁ = inferProperties rows₂ := by
  rw [inferProperties_eq, inferProperties_eq,
    Nat.min_eq_left h₁, Nat.min_eq_left h₂, h]

theorem claim7_sample_cap_witness :
    100 ≤ (List.replicate 150 (Value.obj [])).length ∧
    100 ≤ (List.replicate 100 (Value.obj []) ++
      List.replicate 50 (Value.obj [("extra", Value.int 1)])).length ∧
    (List.replicate 150 (Value.obj [])).take 100 =
      (List.replicate 100 (Value.obj []) ++
        List.replicate 50 (Value.obj [("extra", Value.int 1)])).take 100 ∧
    inferProperties (List.replicate 150 (Value.obj [])) =
      inferProperties (List.replicate 100 (Value.obj []) ++
        List.replicate 50 (Value.obj [("extra", Value.int 1)])) :=
  ⟨by simp, by simp, rfl,
    claim7_sample_cap _ _ (by simp) (by simp) rfl⟩

/-- C2 (counterexample): with 101 rows — a non-object first row followed by
100 object rows whose last introduces the field `"a"` — removing the
non-object row changes the result: the removal pulls row 101 into the
100-row scan window. -/
theorem claim2_counterexample :
    inferProperties (Value.str "bad" ::
      (List.replicate 99 (Value.obj []) ++ [Value.obj [("a", Value.int 1)]])) ≠
    inferProperties
      (List.replicate 99 (Value.obj []) ++ [Value.obj [("a", Value.int 1)]]) := by
  intro h
  rw [show inferProperties (Value.str "bad" ::
        (List.replicate 99 (Value.obj []) ++ [Value.obj [("a", Value.int 1)]])) =
      [] from rfl,
    show inferProperties
        (List.replicate 99 (Value.obj []) ++ [Value.obj [("a", Value.int 1)]]) =
      [("a", Schema.mk (.list ["integer", "null"]) none none none)] from rfl] at h
  exact List.cons_ne_nil _ _ h.symm

/-- C2 (amended): for every list of sample rows of length at most 100 (the
sample cap) containing a non-object row, `inferProperties` on that list
produces the same result as on the list with the non-object row removed. -/
theorem claim2_row_skip_amended (l₁ l₂ : List Value) (r : Value)
    (hr : r.isObj = false) (hlen : (l₁ ++ r :: l₂).length ≤ 100) :
    inferProperties (l₁ ++ r :: l₂) = inferProperties (l₁ ++ l₂) := by
  have hlen2 : (l₁ ++ l₂).length ≤ 100 := by
    simp only [List.length_append, List.length_cons] at hlen ⊢
    omega
  rw [inferProperties_eq, inferProperties_eq,
    Nat.min_eq_right hlen, Nat.min_eq_right hlen2,
    List.take_length, List.take_length,
    List.foldl_append, List.foldl_cons, scanRow_nonobj hr, ← List.foldl_append]

theorem claim2_row_skip_amended_witness :
    Value.isObj (.str "bad") = false ∧
    ([Value.obj [("a", Value.int 1)]] ++ Value.str "bad" ::
      [Value.obj [("b", Value.null)]]).length ≤ 100 ∧
    inferProperties ([Value.obj [("a", Value.int 1)]] ++ Value.str "bad" ::
      [Value.obj [("b", Value.null)]]) =
    inferProperties ([Value.obj [("a", Value.int 1)]] ++
      [Value.obj [("b", Value.null)]]) :=
  ⟨rfl, by simp,
    claim2_row_skip_amended _ _ _ rfl (by simp)⟩

/-- C9: if a property name occurs in the properties mapping of exactly one
input schema (well-formed, so the schema carrying properties also carries
the `"object"` tag), the merged schema's entry for that name is exactly
that input's sub-schema, copied unchanged — no `null` is added and its
type tag is not normalized into a list. -/
theorem claim9_unique_prop_copied (l₁ l₂ : List Schema) (s : Schema)
    (q₁ q₂ : List (String × Schema)) (k : String) (v : Schema)
    (hs : s.propsOpt = some (q₁ ++ (k, v) :: q₂))
    (hq₁ : k ∉ q₁.map Prod.fst) (hq₂ : k ∉ q₂.map Prod.fst)
    (hl₁ : ∀ t ∈ l₁, k ∉ t.propKeys) (hl₂ : ∀ t ∈ l₂, k ∉ t.propKeys)
    (hobj : "object" ∈ s.typeJ.tags) :
    lookupKV (merge (l₁ ++ s :: l₂)).props k = some v := by
  have hobjAll : "object" ∈ allTags (l₁ ++ s :: l₂) := by
    rw [mem_allTags]
    exact Or.inl ⟨s, by simp, hobj⟩
  rw [merge, mergeF_succ_eq, Schema.props_mk, if_pos hobjAll, Option.getD_some,
    mergeProps, List.foldl_append, List.foldl_cons,
    foldProps_untouched hl₂, mergePropsStep,
    show s.props = q₁ ++ (k, v) :: q₂ from by rw [Schema.props, hs]; rfl,
    insertAll_append, insertAll_cons,
    lookupKV_insertAll_not_mem hq₂, lookupKV_upsert_self,
    lookupKV_insertAll_not_mem hq₁, foldProps_untouched hl₁]
  rfl

theorem claim9_unique_prop_copied_witness :
    (Schema.mk (.single "object")
        (some [("a", Schema.mk (.single "integer") none none none),
               ("k", Schema.mk (.single "string") none none none)])
        none (some false)).propsOpt =
      some ([("a", Schema.mk (.single "integer") none none none)] ++
        ("k", Schema.mk (.single "string") none none none) :: []) ∧
    lookupKV (merge [Schema.mk (.single "object")
        (some [("a", Schema.mk (.single "integer") none none none),
               ("k", Schema.mk (.single "string") none none none)])
        none (some false)]).props "k" =
      some (Schema.mk (.single "string") none none none) :=
  ⟨rfl, claim9_unique_prop_copied [] [] _
    [("a", Schema.mk (.single "integer") none none none)] [] "k"
    (Schema.mk (.single "string") none none none)
    rfl (by decide) (by decide) (by simp) (by simp) (by decide)⟩

/-- C8 (counterexample): the program's sanitizer is Unicode-aware, so a
query named `"Ä"` does not lose the character — CPython's `str.isalnum`
accepts `'Ä'` and `str.lower` maps it to `'ä'` — and the stream name is
`"ä"`, which is non-empty (no `query_<id>` fallback) yet contains a
character outside the identifier-safe set of lowercase ASCII
alphanumerics and underscores that the specification requires. -/
theorem claim8_counterexample :
    streamName 7 (some "Ä") = "ä" ∧
    'ä' ∈ (streamName 7 (some "Ä")).data ∧
    allowedChar 'ä' = false := by
  refine ⟨rfl, ?_, by decide⟩
  rw [show (streamName 7 (some "Ä")).data = ['ä'] from rfl]
  exact List.mem_singleton_self _

/-- C8 (amended): for every query whose id is a non-negative integer and
whose human name (when present) contains only ASCII characters, the
stream name consists only of lowercase ASCII alphanumeric characters and
underscores, and when sanitization of the query's human name yields an
empty string the stream name falls back to `query_<id>`. -/
theorem claim8_stream_name_amended (qid : Nat) (name : Option String)
    (hascii : ∀ s, name = some s → ∀ c ∈ s.data, c.toNat < 128) :
    (∀ c ∈ (streamName qid name).data, allowedChar c = true) ∧
    (sanitizeData ((name.map String.data).getD (queryFallback qid)) = [] →
      streamName qid name = ⟨queryFallback qid⟩) := by
  have hqn : ∀ c ∈ (name.map String.data).getD (queryFallback qid),
      c.toNat < 128 := by
    rcases name with _ | s
    · exact fun c hc => queryFallback_ascii c hc
    · intro c hc
      exact hascii s rfl c (by simpa using hc)
  have e : streamName qid name =
      if sanitizeData ((name.map String.data).getD (queryFallback qid)) = []
      then (⟨queryFallback qid⟩ : String)
      else ⟨sanitizeData ((name.map String.data).getD (queryFallback qid))⟩ := rfl
  constructor
  · intro c hc
    by_cases hempty :
        sanitizeData ((name.map String.data).getD (queryFallback qid)) = []
    · rw [e, if_pos hempty] at hc
      exact queryFallback_allowed c hc
    · rw [e, if_neg hempty] at hc
      exact sanitizeData_allowed hqn c hc
  · intro hempty
    rw [e, if_pos hempty]

theorem claim8_stream_name_amended_witness :
    (∀ s, (some "My Query-1!") = some s → ∀ c ∈ s.data, c.toNat < 128) ∧
    (∀ c ∈ (streamName 7 (some "My Query-1!")).data, allowedChar c = true) ∧
    (sanitizeData (((some "!!!").map String.data).getD (queryFallback 7)) = [] →
      streamName 7 (some "!!!") = ⟨queryFallback 7⟩) ∧
    streamName 7 (some "!!!") = "query_7" :=
  ⟨fun s hs => by
      cases hs
      decide,
   (claim8_stream_name_amended 7 (some "My Query-1!")
     (fun s hs => by cases hs; decide)).1,
   (claim8_stream_name_amended 7 (some "!!!")
     (fun s hs => by cases hs; decide)).2,
   (claim8_stream_name_amended 7 (some "!!!")
     (fun s hs => by cases hs; decide)).2 rfl⟩

/-! ## The fuel of `merge` is irrelevant: `merge` satisfies the recursion
of `_merge_schemas` exactly -/

theorem upsert_cons_eq {m : Schema → Schema → Schema} {k : String}
    {v' : Schema} {rest : List (String × Schema)} {v : Schema} :
    upsert m ((k, v') :: rest) k v = (k, m v' v) :: rest := by
  rw [upsert, if_pos rfl]

theorem upsert_cons_ne {m : Schema → Schema → Schema} {k' : String}
    {v' : Schema} {rest : List (String × Schema)} {k : String} {v : Schema}
    (h : k' ≠ k) :
    upsert m ((k', v') :: rest) k v = (k', v') :: upsert m rest k v := by
  rw [upsert, if_neg h]

theorem propsDepth_lt_of {M : Nat} {ps : List (String × Schema)}
    (hM : 0 < M) (h : ∀ p ∈ ps, p.2.depth < M) : propsDepth ps < M := by
  induction ps with
  | nil => rw [propsDepth]; omega
  | cons q rest ih =>
    obtain ⟨k, v⟩ := q
    rw [propsDepth]
    have h1 : v.depth < M := h _ (List.mem_cons_self _ _)
    have h2 := ih fun p hp => h p (List.mem_cons_of_mem _ hp)
    omega

theorem schemasDepth_lt_of {M : Nat} {L : List Schema}
    (hM : 0 < M) (h : ∀ s ∈ L, s.depth < M) : schemasDepth L < M := by
  induction L with
  | nil => exact hM
  | cons s rest ih =>
    rw [schemasDepth_cons]
    have h1 := h _ (List.mem_cons_self _ _)
    have h2 := ih fun t ht => h t (List.mem_cons_of_mem _ ht)
    omega

theorem depth_mergeF_le : ∀ (f : Nat) (l : List Schema),
    (mergeF f l).depth ≤ max 1 (schemasDepth l) := by
  intro f
  induction f with
  | zero =>
    intro l
    rw [mergeF, Schema.depth, propsOptDepth, itemsDepth]
    omega
  | succ f ih =>
    intro l
    rw [mergeF_succ_eq, Schema.depth]
    have hP : propsOptDepth (if "object" ∈ allTags l then
        some (mergeProps (fun a b => mergeF f [a, b]) l) else none) <
        max 1 (schemasDepth l) := by
      by_cases hobj : "object" ∈ allTags l
      · rw [if_pos hobj, propsOptDepth]
        refine propsDepth_lt_of (by omega) ?_
        have hvals : ∀ p ∈ mergeProps (fun a b => mergeF f [a, b]) l,
            (fun v : Schema => v.depth < max 1 (schemasDepth l)) p.2 := by
          refine @mergeProps_values (fun a b => mergeF f [a, b])
            (fun v : Schema => v.depth < max 1 (schemasDepth l)) l ?_ ?_
          · intro s hs p hp
            obtain ⟨pk, pv⟩ := p
            show pv.depth < max 1 (schemasDepth l)
            have h1 := depth_lt_of_mem_props hp
            have h2 := depth_le_schemasDepth hs
            omega
          · intro a b ha hb
            show (mergeF f [a, b]).depth < max 1 (schemasDepth l)
            have h3 := ih [a, b]
            rw [schemasDepth_pair] at h3
            have h4 := a.depth_pos
            have h5 := b.depth_pos
            have h6 : a.depth < max 1 (schemasDepth l) := ha
            have h7 : b.depth < max 1 (schemasDepth l) := hb
            omega
        exact hvals
      · rw [if_neg hobj, propsOptDepth]
        omega
    have hI : itemsDepth (if "array" ∈ allTags l then
        if (l.filterMap Schema.itemsOpt).isEmpty = true then none
        else some (mergeF f (l.filterMap Schema.itemsOpt)) else none) <
        max 1 (schemasDepth l) := by
      by_cases harr : "array" ∈ allTags l
      · by_cases hemp : (l.filterMap Schema.itemsOpt).isEmpty = true
        · rw [if_pos harr, if_pos hemp, itemsDepth]
          omega
        · rw [if_pos harr, if_neg hemp, itemsDepth]
          have h3 := ih (l.filterMap Schema.itemsOpt)
          have hbound : schemasDepth (l.filterMap Schema.itemsOpt) <
              max 1 (schemasDepth l) := by
            refine schemasDepth_lt_of (by omega) ?_
            intro s hs
            rcases List.mem_filterMap.1 hs with ⟨t, ht, hts⟩
            have h4 := depth_lt_of_items hts
            have h5 := depth_le_schemasDepth ht
            omega
          have hne : l.filterMap Schema.itemsOpt ≠ [] := by
            simpa [List.isEmpty_iff] using hemp
          obtain ⟨s0, hs0⟩ := List.exists_mem_of_ne_nil _ hne
          have h6 := depth_le_schemasDepth hs0
          have h7 := s0.depth_pos
          omega
      · rw [if_neg harr, itemsDepth]
        omega
    omega

theorem upsert_congr {m₁ m₂ : Schema → Schema → Schema} {B : Nat}
    (hm : ∀ a b, a.depth < B → b.depth < B →
      m₁ a b = m₂ a b ∧ (m₁ a b).depth < B) :
    ∀ {acc : List (String × Schema)} {k : String} {v : Schema},
    (∀ p ∈ acc, p.2.depth < B) → v.depth < B →
    upsert m₁ acc k v = upsert m₂ acc k v ∧
      ∀ p ∈ upsert m₁ acc k v, p.2.depth < B := by
  intro acc
  induction acc with
  | nil =>
    intro k v hacc hv
    refine ⟨rfl, ?_⟩
    intro p hp
    have hp2 : p = (k, v) := by simpa [upsert] using hp
    rw [hp2]
    exact hv
  | cons q rest ih =>
    intro k v hacc hv
    obtain ⟨k', v'⟩ := q
    by_cases hk : k' = k
    · subst hk
      obtain ⟨he, hd⟩ := hm v' v (hacc _ (List.mem_cons_self _ _)) hv
      refine ⟨by rw [upsert_cons_eq, upsert_cons_eq, he], ?_⟩
      intro p hp
      rw [upsert_cons_eq] at hp
      rcases List.mem_cons.1 hp with rfl | hp'
      · exact hd
      · exact hacc _ (List.mem_cons_of_mem _ hp')
    · have ih2 : upsert m₁ rest k v = upsert m₂ rest k v ∧
          ∀ p ∈ upsert m₁ rest k v, p.2.depth < B :=
        ih (fun p hp => hacc _ (List.mem_cons_of_mem _ hp)) hv
      refine ⟨by rw [upsert_cons_ne hk, upsert_cons_ne hk, ih2.1], ?_⟩
      intro p hp
      rw [upsert_cons_ne hk] at hp
      rcases List.mem_cons.1 hp with rfl | hp'
      · exact hacc _ (List.mem_cons_self _ _)
      · exact ih2.2 p hp'

theorem insertAll_congr {m₁ m₂ : Schema → Schema → Schema} {B : Nat}
    (hm : ∀ a b, a.depth < B → b.depth < B →
      m₁ a b = m₂ a b ∧ (m₁ a b).depth < B) :
    ∀ (ps acc : List (String × Schema)),
    (∀ p ∈ acc, p.2.depth < B) → (∀ p ∈ ps, p.2.depth < B) →
    insertAll m₁ acc ps = insertAll m₂ acc ps ∧
      ∀ p ∈ insertAll m₁ acc ps, p.2.depth < B := by
  intro ps
  induction ps with
  | nil => intro acc hacc _; exact ⟨rfl, hacc⟩
  | cons q rest ih =>
    intro acc hacc hps
    obtain ⟨k, v⟩ := q
    have hv : v.depth < B := hps _ (List.mem_cons_self _ _)
    have hu : upsert m₁ acc k v = upsert m₂ acc k v ∧
        ∀ p ∈ upsert m₁ acc k v, p.2.depth < B := upsert_congr hm hacc hv
    have ih2 := ih (upsert m₁ acc k v) hu.2
      (fun p hp => hps _ (List.mem_cons_of_mem _ hp))
    refine ⟨?_, ?_⟩
    · rw [insertAll_cons, insertAll_cons, ← hu.1, ih2.1]
    · intro p hp
      rw [insertAll_cons] at hp
      exact ih2.2 p hp

theorem mergePropsFrom_congr {m₁ m₂ : Schema → Schema → Schema} {B : Nat}
    (hm : ∀ a b, a.depth < B → b.depth < B →
      m₁ a b = m₂ a b ∧ (m₁ a b).depth < B) :
    ∀ (schemas : List Schema) (acc : List (String × Schema)),
    (∀ p ∈ acc, p.2.depth < B) →
    (∀ s ∈ schemas, ∀ p ∈ s.props, p.2.depth < B) →
    schemas.foldl (fun acc s =>
        match s.propsOpt with
        | none => acc
        | some ps => insertAll m₁ acc ps) acc =
      schemas.foldl (fun acc s =>
        match s.propsOpt with
        | none => acc
        | some ps => insertAll m₂ acc ps) acc ∧
    ∀ p ∈ schemas.foldl (fun acc s =>
        match s.propsOpt with
        | none => acc
        | some ps => insertAll m₁ acc ps) acc, p.2.depth < B := by
  intro schemas
  induction schemas with
  | nil => intro acc hacc _; exact ⟨rfl, hacc⟩
  | cons s rest ih =>
    intro acc hacc hs
    have hIA := insertAll_congr hm s.props acc hacc
      (hs s (List.mem_cons_self _ _))
    have ih2 := ih (insertAll m₁ acc s.props) hIA.2
      (fun t ht => hs t (List.mem_cons_of_mem _ ht))
    refine ⟨?_, ?_⟩
    · rw [List.foldl_cons, List.foldl_cons, mergePropsStep, mergePropsStep,
        ← hIA.1, ih2.1]
    · intro p hp
      rw [List.foldl_cons, mergePropsStep] at hp
      exact ih2.2 p hp

theorem mergeProps_congr {m₁ m₂ : Schema → Schema → Schema} {B : Nat}
    (hm : ∀ a b, a.depth < B → b.depth < B →
      m₁ a b = m₂ a b ∧ (m₁ a b).depth < B)
    (schemas : List Schema)
    (hs : ∀ s ∈ schemas, ∀ p ∈ s.props, p.2.depth < B) :
    mergeProps m₁ schemas = mergeProps m₂ schemas := by
  rw [mergeProps, mergeProps]
  exact (mergePropsFrom_congr hm schemas [] (by simp) hs).1

/-- The fuel of `mergeF` is irrelevant once it exceeds the depth of the
input schemas: the recursion of `_merge_schemas` always terminates within
that bound. -/
theorem mergeF_stable : ∀ (D : Nat) (l : List Schema) (f g : Nat),
    schemasDepth l ≤ D → D < f → D < g → mergeF f l = mergeF g l := by
  intro D
  induction D using Nat.strong_induction_on with
  | _ D ih =>
    intro l f g hD hf hg
    rcases f with _ | f'
    · omega
    rcases g with _ | g'
    · omega
    rw [mergeF_succ_eq, mergeF_succ_eq]
    have hm : ∀ a b : Schema, a.depth < max 1 (schemasDepth l) →
        b.depth < max 1 (schemasDepth l) →
        mergeF f' [a, b] = mergeF g' [a, b] ∧
          (mergeF f' [a, b]).depth < max 1 (schemasDepth l) := by
      intro a b ha hb
      have hpa := a.depth_pos
      have hpb := b.depth_pos
      have hda : a.depth < schemasDepth l := by omega
      have hdb : b.depth < schemasDepth l := by omega
      constructor
      · refine ih (max a.depth b.depth) (by omega) [a, b] f' g' ?_
          (by omega) (by omega)
        rw [schemasDepth_pair]
      · have h3 := depth_mergeF_le f' [a, b]
        rw [schemasDepth_pair] at h3
        omega
    have hprops : (if "object" ∈ allTags l then
        some (mergeProps (fun a b => mergeF f' [a, b]) l) else none) =
        (if "object" ∈ allTags l then
        some (mergeProps (fun a b => mergeF g' [a, b]) l) else none) := by
      by_cases hobj : "object" ∈ allTags l
      · rw [if_pos hobj, if_pos hobj]
        refine congrArg some (mergeProps_congr hm l ?_)
        intro s hs p hp
        have h1 := depth_lt_of_mem_props hp
        have h2 := depth_le_schemasDepth hs
        omega
      · rw [if_neg hobj, if_neg hobj]
    have hitems : (if "array" ∈ allTags l then
        if (l.filterMap Schema.itemsOpt).isEmpty = true then none
        else some (mergeF f' (l.filterMap Schema.itemsOpt)) else none) =
        (if "array" ∈ allTags l then
        if (l.filterMap Schema.itemsOpt).isEmpty = true then none
        else some (mergeF g' (l.filterMap Schema.itemsOpt)) else none) := by
      by_cases harr : "array" ∈ allTags l
      · by_cases hemp : (l.filterMap Schema.itemsOpt).isEmpty = true
        · rw [if_pos harr, if_pos harr, if_pos hemp, if_pos hemp]
        · rw [if_pos harr, if_pos harr, if_neg hemp, if_neg hemp]
          refine congrArg some ?_
          have hItemsLt : ∀ s ∈ l.filterMap Schema.itemsOpt,
              s.depth < schemasDepth l := by
            intro s hs
            rcases List.mem_filterMap.1 hs with ⟨t, ht, hts⟩
            have h4 := depth_lt_of_items hts
            have h5 := depth_le_schemasDepth ht
            omega
          have hne : l.filterMap Schema.itemsOpt ≠ [] := by
            simpa [List.isEmpty_iff] using hemp
          obtain ⟨s0, hs0⟩ := List.exists_mem_of_ne_nil _ hne
          have h6 := s0.depth_pos
          have h7 := hItemsLt s0 hs0
          have hsd : schemasDepth (l.filterMap Schema.itemsOpt) < D := by
            refine lt_of_lt_of_le (schemasDepth_lt_of ?_ hItemsLt) hD
            omega
          exact ih (schemasDepth (l.filterMap Schema.itemsOpt)) hsd
            _ f' g' le_rfl (by omega) (by omega)
      · rw [if_neg harr, if_neg harr]
    rw [hprops, hitems]

/-- `merge` satisfies the defining recursion of `_merge_schemas`: one merge
step whose recursive positions again call `merge`.  This shows the fuel
chosen in the definition of `merge` is always sufficient. -/
theorem merge_unfold (schemas : List Schema) :
    merge schemas =
      .mk (.list (sortDedup (allTags schemas)))
        (if "object" ∈ allTags schemas then
          some (mergeProps (fun a b => merge [a, b]) schemas)
        else none)
        (if "array" ∈ allTags schemas then
          if (schemas.filterMap Schema.itemsOpt).isEmpty then none
          else some (merge (schemas.filterMap Schema.itemsOpt))
        else none)
        (if "object" ∈ allTags schemas then some false else none) := by
  rw [merge, mergeF_succ_eq]
  have hm : ∀ a b : Schema, a.depth < max 1 (schemasDepth schemas) →
      b.depth < max 1 (schemasDepth schemas) →
      mergeF (schemasDepth schemas) [a, b] = merge [a, b] ∧
        (mergeF (schemasDepth schemas) [a, b]).depth <
          max 1 (schemasDepth schemas) := by
    intro a b ha hb
    have hpa := a.depth_pos
    have hpb := b.depth_pos
    have hda : a.depth < schemasDepth schemas := by omega
    have hdb : b.depth < schemasDepth schemas := by omega
    constructor
    · rw [merge, schemasDepth_pair]
      exact mergeF_stable (max a.depth b.depth) [a, b] _ _
        (le_of_eq (schemasDepth_pair a b)) (by omega) (by omega)
    · have h3 := depth_mergeF_le (schemasDepth schemas) [a, b]
      rw [schemasDepth_pair] at h3
      omega
  have hprops : (if "object" ∈ allTags schemas then
      some (mergeProps (fun a b => mergeF (schemasDepth schemas) [a, b])
        schemas) else none) =
      (if "object" ∈ allTags schemas then
      some (mergeProps (fun a b => merge [a, b]) schemas) else none) := by
    by_cases hobj : "object" ∈ allTags schemas
    · rw [if_pos hobj, if_pos hobj]
      refine congrArg some (mergeProps_congr hm schemas ?_)
      intro s hs p hp
      have h1 := depth_lt_of_mem_props hp
      have h2 := depth_le_schemasDepth hs
      omega
    · rw [if_neg hobj, if_neg hobj]
  have hitems : (if "array" ∈ allTags schemas then
      if (schemas.filterMap Schema.itemsOpt).isEmpty = true then none
      else some (mergeF (schemasDepth schemas)
        (schemas.filterMap Schema.itemsOpt)) else none) =
      (if "array" ∈ allTags schemas then
      if (schemas.filterMap Schema.itemsOpt).isEmpty = true then none
      else some (merge (schemas.filterMap Schema.itemsOpt)) else none) := by
    by_cases harr : "array" ∈ allTags schemas
    · by_cases hemp : (schemas.filterMap Schema.itemsOpt).isEmpty = true
      · rw [if_pos harr, if_pos harr, if_pos hemp, if_pos hemp]
      · rw [if_pos harr, if_pos harr, if_neg hemp, if_neg hemp]
        refine congrArg some ?_
        have hItemsLt : ∀ s ∈ schemas.filterMap Schema.itemsOpt,
            s.depth < schemasDepth schemas := by
          intro s hs
          rcases List.mem_filterMap.1 hs with ⟨t, ht, hts⟩
          have h4 := depth_lt_of_items hts
          have h5 := depth_le_schemasDepth ht
          omega
        have hne : schemas.filterMap Schema.itemsOpt ≠ [] := by
          simpa [List.isEmpty_iff] using hemp
        obtain ⟨s0, hs0⟩ := List.exists_mem_of_ne_nil _ hne
        have h6 := s0.depth_pos
        have h7 := hItemsLt s0 hs0
        rw [merge]
        exact mergeF_stable (schemasDepth (schemas.filterMap Schema.itemsOpt))
          _ _ _ le_rfl
          (by
            have := schemasDepth_lt_of (M := schemasDepth schemas) (by omega)
              hItemsLt
            omega)
          (by omega)
    · rw [if_neg harr, if_neg harr]
  rw [hprops, hitems]
